import Mathlib

/-!
# UnderClicker: the game logic of `index.js`

A shallow embedding of the state-changing functions of `index.js`
(`calculateCost`, `handleSoulClick`, `purchaseUpgrade`, `gameLoop`,
`calculateDtOnReset`, `handleReset`, `init`) and of the JavaScript built-ins
they call.  A JavaScript Number is read in two ways.

Exact reading (namespace `UnderClicker`).  `gold` and `gps` are rationals, `dt`
and the results of `Math.ceil` and `Math.floor` are integers, owned counts are
naturals; `0.05` is `1/20` and `1.15` is `23/20`; `NaN` appears only as a result
of `parseInt` (type `Num`).  It carries the statements on the control flow of a
purchase, on the bookkeeping of `gps`, and on the string kept in
`localStorage`.

Double reading (namespace `UnderClicker.IEEE`).  Every Number is an IEEE-754
double (type `F64`): `NaN`, an infinity, or a finite value, and `+`, `-`, `*`,
`/` round to the nearest double, ties to even.  `Math.pow` and `Math.cbrt` are
"implementation-approximated" in ECMAScript; their results on finite non-zero
arguments are a parameter (`Engine`), and `refEngine` is one such engine.  This
reading carries the statements on pricing, gold gain, reset and the reachable
states, which rounding, `NaN` and `Infinity` decide.

Effects. The DOM, the audio calls and `updateDisplay` do not change
`gold`, `gps`, `dt` or the owned counts and are left out.  `confirm` is the
boolean answer of the user, `localStorage` is an association list.
-/

namespace UnderClicker

/-! ## Game data -/

/-- One entry of the `upgrades` array. -/
structure Upgrade where
  id : String
  name : String
  baseCost : ℚ
  gps : ℚ
  count : ℕ
  deriving DecidableEq

/-- The mutable globals `gold`, `gps`, `dt` and the `upgrades` array. -/
structure State where
  gold : ℚ
  gps : ℚ
  dt : ℤ
  upgrades : List Upgrade
  deriving DecidableEq

/-- The constant `DT_BONUS_PER_POINT = 0.05`. -/
def DT_BONUS_PER_POINT : ℚ := 1 / 20

/-- The constant `RESET_THRESHOLD = 1000000`. -/
def RESET_THRESHOLD : ℚ := 1000000

/-- The `upgrades` array as the script creates it (lines 61-68). -/
def upgrades : List Upgrade :=
  [ { id := "flowey", name := "Flowey", baseCost := 15, gps := 1, count := 0 },
    { id := "toriel", name := "Toriel", baseCost := 100, gps := 5, count := 0 },
    { id := "papyrus", name := "Papyrus", baseCost := 500, gps := 20, count := 0 },
    { id := "undyne", name := "Undyne", baseCost := 3000, gps := 100, count := 0 },
    { id := "alphys", name := "Alphys", baseCost := 10000, gps := 450, count := 0 },
    { id := "sans", name := "Sans", baseCost := 100000, gps := 5000, count := 0 } ]

/-- The fields of an upgrade that no function of the script assigns. -/
def Upgrade.fixed (u : Upgrade) : String × String × ℚ × ℚ :=
  (u.id, u.name, u.baseCost, u.gps)

/-- The array holds the six catalog entries, in order, with any owned counts. -/
def IsCatalog (us : List Upgrade) : Prop :=
  us.map Upgrade.fixed = upgrades.map Upgrade.fixed

instance (us : List Upgrade) : Decidable (IsCatalog us) := by
  unfold IsCatalog; infer_instance

/-- The globals at script start, with `dt` as `init` left it. -/
def initialState (dt : ℤ) : State :=
  { gold := 0, gps := 0, dt := dt, upgrades := upgrades }

/-- The exception a property read on `undefined` raises. -/
inductive JSError where
  | typeError
  deriving DecidableEq

/-! ## Functions -/

/-- The function `calculateCost(upgrade)`, lines 71-73.  The argument is
`undefined` (`none`) when `purchaseUpgrade` found no upgrade; reading
`upgrade.baseCost` then throws. -/
def calculateCost : Option Upgrade → Except JSError ℤ
  | none => .error .typeError
  | some upgrade => .ok ⌈upgrade.baseCost * (23 / 20 : ℚ) ^ upgrade.count⌉

/-- The multiplier `1 + dt * DT_BONUS_PER_POINT` computed by the click handler,
the game loop and the display. -/
def dtBonus (dt : ℤ) : ℚ := 1 + (dt : ℚ) * DT_BONUS_PER_POINT

/-- The handler `handleSoulClick()`, lines 106-112. -/
def handleSoulClick (s : State) : State :=
  { s with gold := s.gold + 1 * dtBonus s.dt }

/-- The effect of `upgrade.count++` on the object `find` returned: the first
entry with the given id. -/
def incrementCount (upgradeId : String) : List Upgrade → List Upgrade
  | [] => []
  | u :: us =>
    if u.id = upgradeId then { u with count := u.count + 1 } :: us
    else u :: incrementCount upgradeId us

/-- The handler `purchaseUpgrade(upgradeId)`, lines 114-126.
`calculateCost(upgrade)` runs before the test of `upgrade`. -/
def purchaseUpgrade (upgradeId : String) (s : State) : Except JSError State :=
  let upgrade := s.upgrades.find? (fun u => u.id = upgradeId)
  match calculateCost upgrade with
  | .error e => .error e
  | .ok currentCost =>
    match upgrade with
    | some u =>
      if s.gold ≥ (currentCost : ℚ) then
        .ok { s with gold := s.gold - (currentCost : ℚ),
                     gps := s.gps + u.gps,
                     upgrades := incrementCount upgradeId s.upgrades }
      else .ok s
    | none => .ok s

/-- The timer callback `gameLoop()`, lines 146-150. -/
def gameLoop (s : State) : State :=
  { s with gold := s.gold + (s.gps / 10) * dtBonus s.dt }

/-- Integer cube root by halving: `icbrtFuel f n` is the largest `r` with
`r ^ 3 ≤ n` once `n ≤ f`. -/
def icbrtFuel : ℕ → ℕ → ℕ
  | 0, _ => 0
  | f + 1, n =>
    if n = 0 then 0
    else
      let r := 2 * icbrtFuel f (n / 8)
      if (r + 1) ^ 3 ≤ n then r + 1 else r

/-- The largest natural `r` with `r ^ 3 ≤ n`. -/
def icbrt (n : ℕ) : ℕ := icbrtFuel n n

/-- The composite `Math.floor(Math.cbrt(x))` in exact arithmetic.  The cube
root of a rational is in general irrational, so the two calls are embedded
together: for `x ≥ 0` the result is the integer cube root of `⌊x⌋`, for `x < 0`
it is minus the rounded-up cube root of `⌈-x⌉`. -/
def floorCbrt (x : ℚ) : ℤ :=
  if 0 ≤ x then (icbrt ⌊x⌋.toNat : ℤ)
  else
    let m := ⌈-x⌉.toNat
    let r := icbrt m
    if r ^ 3 = m then -(r : ℤ) else -((r : ℤ) + 1)

/-- The function `calculateDtOnReset()`, lines 152-155. -/
def calculateDtOnReset (s : State) : ℤ :=
  if s.gold < RESET_THRESHOLD then 0
  else floorCbrt (s.gold / RESET_THRESHOLD)

/-! ## Durable storage and the built-ins around it -/

/-- The value of `localStorage`: keys with their stored strings. -/
abbrev Storage := List (String × String)

/-- The call `localStorage.getItem(key)`: `none` is `null`. -/
def getItem (st : Storage) (key : String) : Option String :=
  st.lookup key

/-- The call `localStorage.setItem(key, value)` with `value` already a string. -/
def setItem (st : Storage) (key value : String) : Storage :=
  (key, value) :: st.filter (fun kv => kv.1 ≠ key)

/-- The key the script stores `dt` under. -/
def dtKey : String := "undertaleClickerDt"

/-- Drops the trailing `'0'` characters of a digit list. -/
def stripTrailingZeros (ds : List Char) : List Char :=
  (ds.reverse.dropWhile (fun c => c = '0')).reverse

/-- The operation `Number::toString` (radix 10) of a natural number held
exactly: the decimal digits when there are at most 21 of them, otherwise the
exponent form `d.ddd…e+N` built from the digits without trailing zeros. -/
def natToString (x : ℕ) : String :=
  let ds := Nat.toDigits 10 x
  let n := ds.length
  if n ≤ 21 then String.mk ds
  else
    match stripTrailingZeros ds with
    | [] => String.mk ds
    | [d] => String.mk ([d] ++ "e+".toList ++ Nat.toDigits 10 (n - 1))
    | d :: rest => String.mk ([d, '.'] ++ rest ++ "e+".toList ++ Nat.toDigits 10 (n - 1))

/-- The string `setItem` stores for an integer-valued Number. -/
def numberToString (x : ℤ) : String :=
  if x < 0 then "-" ++ natToString x.natAbs else natToString x.natAbs

/-- The result of `parseInt`: `NaN` or an integer. -/
inductive Num where
  | nan
  | int (z : ℤ)
  deriving DecidableEq

/-- The code points `parseInt` skips at the start of its input: the white space
and line terminators of ECMAScript. -/
def isStrWhiteSpaceChar (c : Char) : Bool :=
  c.toNat ∈ [0x9, 0xA, 0xB, 0xC, 0xD, 0x20, 0xA0, 0x1680, 0x2000, 0x2001, 0x2002, 0x2003,
    0x2004, 0x2005, 0x2006, 0x2007, 0x2008, 0x2009, 0x200A, 0x2028, 0x2029, 0x202F, 0x205F,
    0x3000, 0xFEFF]

/-- The value of a run of decimal digits, most significant first. -/
def digitsValue (ds : List Char) : ℕ :=
  ds.foldl (fun acc c => 10 * acc + (c.toNat - '0'.toNat)) 0

/-- The built-in `parseInt(string, 10)`: skip leading white space, take an optional sign, then
the longest run of decimal digits; `NaN` when that run is empty. -/
def parseInt (input : String) : Num :=
  let trimmed := input.toList.dropWhile isStrWhiteSpaceChar
  let sign : ℤ :=
    match trimmed with
    | c :: _ => if c = '-' then -1 else 1
    | [] => 1
  let body : List Char :=
    match trimmed with
    | c :: rest => if c = '-' ∨ c = '+' then rest else trimmed
    | [] => []
  let z := body.takeWhile Char.isDigit
  if z = [] then Num.nan else Num.int (sign * (digitsValue z : ℤ))

/-! ## Reset and start-up -/

/-- The handler `handleReset()`, lines 157-180, with the user's answer to `confirm` as
`confirmation`.  Returns the new globals and the new `localStorage`. -/
def handleReset (confirmation : Bool) (s : State) (st : Storage) : State × Storage :=
  let dtGained := calculateDtOnReset s
  if dtGained ≤ 0 then (s, st)
  else if confirmation then
    let dt := s.dt + dtGained
    ({ gold := 0, gps := 0, dt := dt,
       upgrades := s.upgrades.map (fun u => { u with count := 0 }) },
     setItem st dtKey (numberToString dt))
  else (s, st)

/-- The value of `dt` after `init()`, lines 183-188: the script's initial `0`
unless the stored string is truthy (present and not empty). -/
def init (st : Storage) : Num :=
  match getItem st dtKey with
  | none => Num.int 0
  | some savedDt => if savedDt = "" then Num.int 0 else parseInt savedDt

/-! ## Runs of the game -/

/-- The events that change the globals. -/
inductive Action where
  | click
  | purchase (upgradeId : String)
  | tick
  | reset (confirmation : Bool)
  deriving DecidableEq

/-- One event handler run.  An exception thrown by `purchaseUpgrade` ends the
handler with the globals as they were. -/
def step (a : Action) (w : State × Storage) : State × Storage :=
  match a with
  | .click => (handleSoulClick w.1, w.2)
  | .purchase upgradeId =>
    match purchaseUpgrade upgradeId w.1 with
    | .ok s => (s, w.2)
    | .error _ => w
  | .tick => (gameLoop w.1, w.2)
  | .reset confirmation => handleReset confirmation w.1 w.2

/-- The events of a list, handled in order. -/
def run (as : List Action) (w : State × Storage) : State × Storage :=
  as.foldl (fun w a => step a w) w

/-- The owned count of the upgrade `find` returns for an id (`0` if none). -/
def ownedCount (s : State) (upgradeId : String) : ℕ :=
  match s.upgrades.find? (fun u => u.id = upgradeId) with
  | some u => u.count
  | none => 0

/-- The sum over the array of `count * gps`. -/
def totalGps (us : List Upgrade) : ℚ :=
  (us.map (fun u => (u.count : ℚ) * u.gps)).sum

/-! ## IEEE-754 double precision -/

namespace IEEE

/-- A JavaScript Number: `NaN`, `+Infinity` or `-Infinity` (`negative` set), or a
finite value.  `+0` and `-0` are both `fin 0`; the script never divides by a
variable and prints no zero, so it cannot tell them apart. -/
inductive F64 where
  | nan
  | inf (negative : Bool)
  | fin (q : ℚ)
  deriving DecidableEq

/-- The power of two `2 ^ e` for an integer `e`. -/
def pow2 (e : ℤ) : ℚ :=
  if 0 ≤ e then ((2 ^ e.toNat : ℕ) : ℚ) else 1 / ((2 ^ (-e).toNat : ℕ) : ℚ)

/-- Doubles `k` until `n < 2 ^ k`. -/
def log2Bound : ℕ → ℕ → ℕ → ℕ
  | 0, _, k => k
  | f + 1, n, k => if n < 2 ^ k then k else log2Bound f n (2 * k)

/-- Bisection: with `2 ^ lo ≤ n < 2 ^ hi` the largest `k` with `2 ^ k ≤ n`. -/
def log2Bisect : ℕ → ℕ → ℕ → ℕ → ℕ
  | 0, _, lo, _ => lo
  | f + 1, n, lo, hi =>
    if hi ≤ lo + 1 then lo
    else
      let mid := (lo + hi) / 2
      if 2 ^ mid ≤ n then log2Bisect f n mid hi else log2Bisect f n lo mid

/-- The largest `k` with `2 ^ k ≤ n`, for `n > 0`. -/
def natLog2 (n : ℕ) : ℕ :=
  let hi := log2Bound n n 1
  log2Bisect hi n 0 hi

/-- The binary exponent of a positive rational: `2 ^ ilog2 q ≤ q < 2 ^ (ilog2 q + 1)`. -/
def ilog2 (q : ℚ) : ℤ :=
  let e0 : ℤ := (natLog2 q.num.natAbs : ℤ) - (natLog2 q.den : ℤ)
  if pow2 e0 ≤ q then e0 else e0 - 1

/-- Rounding to the nearest integer, ties to the even one. -/
def roundHalfEven (m : ℚ) : ℤ :=
  let f := ⌊m⌋
  let r := m - (f : ℚ)
  if r < 1 / 2 then f else if 1 / 2 < r then f + 1 else if f % 2 = 0 then f else f + 1

/-- The multiple of the unit in the last place nearest to `q ≥ 0` (ties to even):
53 significant bits, least exponent `-1022` (below it the spacing stays
`2 ^ (-1074)`). -/
def roundMag (q : ℚ) : ℚ :=
  let e := max (ilog2 q) (-1022)
  let u := pow2 (e - 52)
  (roundHalfEven (q / u) : ℚ) * u

/-- The Number nearest to a real value (round to nearest, ties to even); a
magnitude that rounds to `2 ^ 1024` or more becomes an infinity. -/
def round (q : ℚ) : F64 :=
  let v := roundMag |q|
  if pow2 1024 ≤ v then F64.inf (decide (q < 0)) else F64.fin (if q < 0 then -v else v)

namespace F64

/-- Unary minus. -/
def neg : F64 → F64
  | nan => nan
  | inf s => inf (!s)
  | fin q => fin (-q)

/-- The operator `+`. -/
def add : F64 → F64 → F64
  | nan, _ => nan
  | _, nan => nan
  | inf s, inf t => if s = t then inf s else nan
  | inf s, fin _ => inf s
  | fin _, inf t => inf t
  | fin p, fin q => round (p + q)

/-- The operator `-`. -/
def sub (x y : F64) : F64 := add x (neg y)

/-- The operator `*`. -/
def mul : F64 → F64 → F64
  | nan, _ => nan
  | _, nan => nan
  | inf s, inf t => inf (xor s t)
  | inf s, fin q => if q = 0 then nan else inf (xor s (decide (q < 0)))
  | fin p, inf t => if p = 0 then nan else inf (xor (decide (p < 0)) t)
  | fin p, fin q => round (p * q)

/-- The operator `/`. -/
def div : F64 → F64 → F64
  | nan, _ => nan
  | _, nan => nan
  | inf _, inf _ => nan
  | inf s, fin q => inf (xor s (decide (q < 0)))
  | fin _, inf _ => fin 0
  | fin p, fin q =>
    if q = 0 then (if p = 0 then nan else inf (decide (p < 0))) else round (p / q)

/-- The operator `<`; false when an operand is `NaN`. -/
def lt : F64 → F64 → Bool
  | fin p, fin q => decide (p < q)
  | inf true, fin _ => true
  | inf true, inf false => true
  | fin _, inf false => true
  | _, _ => false

/-- The operator `<=`; false when an operand is `NaN`. -/
def le : F64 → F64 → Bool
  | fin p, fin q => decide (p ≤ q)
  | inf true, fin _ => true
  | inf true, inf _ => true
  | fin _, inf false => true
  | inf false, inf false => true
  | _, _ => false

/-- The operator `>=`. -/
def ge (x y : F64) : Bool := le y x

end F64

/-- The part of `Math.pow` and `Math.cbrt` that ECMAScript leaves to the
implementation ("implementation-approximated"): the result for finite non-zero
arguments. -/
structure Engine where
  pow : ℚ → ℚ → F64
  cbrt : ℚ → F64

/-- The built-in `Math.ceil`. -/
def Math.ceil : F64 → F64
  | F64.fin q => F64.fin (⌈q⌉ : ℤ)
  | x => x

/-- The built-in `Math.floor`. -/
def Math.floor : F64 → F64
  | F64.fin q => F64.fin (⌊q⌋ : ℤ)
  | x => x

/-- The built-in `Math.cbrt`: `NaN`, the infinities and zero are returned as they
are, the rest is the engine's. -/
def Math.cbrt (E : Engine) : F64 → F64
  | F64.fin q => if q = 0 then F64.fin 0 else E.cbrt q
  | x => x

/-- The built-in `Math.pow(base, exponent)` (`Number::exponentiate`), its special
cases in the order of the standard. -/
def Math.pow (E : Engine) (base exponent : F64) : F64 :=
  match exponent, base with
  | F64.nan, _ => F64.nan
  | F64.fin e, F64.nan => if e = 0 then F64.fin 1 else F64.nan
  | F64.inf _, F64.nan => F64.nan
  | F64.fin e, F64.inf false =>
    if e = 0 then F64.fin 1 else if 0 < e then F64.inf false else F64.fin 0
  | F64.inf t, F64.inf _ => if t then F64.fin 0 else F64.inf false
  | F64.fin e, F64.inf true =>
    if e = 0 then F64.fin 1
    else if 0 < e then F64.inf (decide (e.den = 1 ∧ e.num % 2 = 1))
    else F64.fin 0
  | F64.inf t, F64.fin b =>
    if b = 0 then (if t then F64.inf false else F64.fin 0)
    else if 1 < |b| then (if t then F64.fin 0 else F64.inf false)
    else if |b| = 1 then F64.nan
    else (if t then F64.inf false else F64.fin 0)
  | F64.fin e, F64.fin b =>
    if e = 0 then F64.fin 1
    else if b = 0 then (if 0 < e then F64.fin 0 else F64.inf false)
    else if b < 0 ∧ e.den ≠ 1 then F64.nan
    else E.pow b e

/-- The cube root of `q > 0` rounded to the nearest Number. -/
def cbrtMag (q : ℚ) : ℚ :=
  let er := ilog2 q / 3
  let u := pow2 (er - 52)
  let n := icbrt ⌊q / u ^ 3⌋.toNat
  if ((2 * n + 1 : ℕ) : ℚ) ^ 3 * u ^ 3 ≤ 8 * q then ((n + 1 : ℕ) : ℚ) * u else (n : ℚ) * u

/-- An engine that rounds the exact power and the exact cube root to the nearest
Number.  It is used at the concrete inputs of the examples below; the general
statements are about every engine.  Exponents that are not integers do not
occur in the game (`count` starts at `0` and is only assigned by `count++` and
`count = 0`); for them this engine answers `NaN`. -/
def refEngine : Engine where
  pow b e :=
    if e.den = 1 then
      (if 0 ≤ e.num then round (b ^ e.num.toNat) else round (1 / b ^ (-e.num).toNat))
    else F64.nan
  cbrt q := if 0 < q then F64.fin (cbrtMag q) else F64.fin (-cbrtMag (-q))

/-- One entry of the `upgrades` array, every field a Number. -/
structure Upgrade where
  id : String
  name : String
  baseCost : F64
  gps : F64
  count : F64
  deriving DecidableEq

/-- The mutable globals `gold`, `gps`, `dt` and the `upgrades` array. -/
structure State where
  gold : F64
  gps : F64
  dt : F64
  upgrades : List Upgrade
  deriving DecidableEq

/-- The constant `DT_BONUS_PER_POINT = 0.05`: the Number nearest to `1/20`. -/
def DT_BONUS_PER_POINT : F64 := round (1 / 20)

/-- The constant `RESET_THRESHOLD = 1000000`. -/
def RESET_THRESHOLD : F64 := F64.fin 1000000

/-- The `upgrades` array as the script creates it (lines 61-68). -/
def upgrades : List Upgrade :=
  [ { id := "flowey", name := "Flowey", baseCost := .fin 15, gps := .fin 1, count := .fin 0 },
    { id := "toriel", name := "Toriel", baseCost := .fin 100, gps := .fin 5, count := .fin 0 },
    { id := "papyrus", name := "Papyrus", baseCost := .fin 500, gps := .fin 20, count := .fin 0 },
    { id := "undyne", name := "Undyne", baseCost := .fin 3000, gps := .fin 100, count := .fin 0 },
    { id := "alphys", name := "Alphys", baseCost := .fin 10000, gps := .fin 450, count := .fin 0 },
    { id := "sans", name := "Sans", baseCost := .fin 100000, gps := .fin 5000, count := .fin 0 } ]

/-- The fields of an upgrade that no function of the script assigns. -/
def Upgrade.fixed (u : Upgrade) : String × String × F64 × F64 :=
  (u.id, u.name, u.baseCost, u.gps)

/-- The array holds the six catalog entries, in order, with any owned counts. -/
def IsCatalog (us : List Upgrade) : Prop :=
  us.map Upgrade.fixed = upgrades.map Upgrade.fixed

/-- The globals at script start, with `dt` as `init` left it. -/
def initialState (dt : F64) : State :=
  { gold := .fin 0, gps := .fin 0, dt := dt, upgrades := upgrades }

/-- The function `calculateCost(upgrade)`, lines 71-73, with the literal `1.15`
as the Number nearest to `23/20`. -/
def calculateCost (E : Engine) : Option Upgrade → Except JSError F64
  | none => .error .typeError
  | some upgrade =>
    .ok (Math.ceil (F64.mul upgrade.baseCost (Math.pow E (round (23 / 20)) upgrade.count)))

/-- The value `1 + dt * DT_BONUS_PER_POINT` computed by the click handler and
the game loop. -/
def dtBonus (dt : F64) : F64 := F64.add (.fin 1) (F64.mul dt DT_BONUS_PER_POINT)

/-- The handler `handleSoulClick()`, lines 106-112. -/
def handleSoulClick (s : State) : State :=
  { s with gold := F64.add s.gold (F64.mul (.fin 1) (dtBonus s.dt)) }

/-- The effect of `upgrade.count++` on the first entry with the given id. -/
def incrementCount (upgradeId : String) : List Upgrade → List Upgrade
  | [] => []
  | u :: us =>
    if u.id = upgradeId then { u with count := F64.add u.count (.fin 1) } :: us
    else u :: incrementCount upgradeId us

/-- The handler `purchaseUpgrade(upgradeId)`, lines 114-126. -/
def purchaseUpgrade (E : Engine) (upgradeId : String) (s : State) : Except JSError State :=
  let upgrade := s.upgrades.find? (fun u => u.id = upgradeId)
  match calculateCost E upgrade with
  | .error e => .error e
  | .ok currentCost =>
    match upgrade with
    | some u =>
      if F64.ge s.gold currentCost then
        .ok { s with gold := F64.sub s.gold currentCost,
                     gps := F64.add s.gps u.gps,
                     upgrades := incrementCount upgradeId s.upgrades }
      else .ok s
    | none => .ok s

/-- The timer callback `gameLoop()`, lines 146-150. -/
def gameLoop (s : State) : State :=
  { s with gold := F64.add s.gold (F64.mul (F64.div s.gps (.fin 10)) (dtBonus s.dt)) }

/-- The function `calculateDtOnReset()`, lines 152-155. -/
def calculateDtOnReset (E : Engine) (s : State) : F64 :=
  if F64.lt s.gold RESET_THRESHOLD then .fin 0
  else Math.floor (Math.cbrt E (F64.div s.gold RESET_THRESHOLD))

/-- The handler `handleReset()`, lines 157-180, with the user's answer to
`confirm`.  Returns the new globals and the Number handed to
`localStorage.setItem`, if the call was made. -/
def handleReset (E : Engine) (confirmation : Bool) (s : State) : State × Option F64 :=
  let dtGained := calculateDtOnReset E s
  if F64.le dtGained (.fin 0) then (s, none)
  else if confirmation then
    let dt := F64.add s.dt dtGained
    ({ gold := .fin 0, gps := .fin 0, dt := dt,
       upgrades := s.upgrades.map (fun u => { u with count := .fin 0 }) },
     some dt)
  else (s, none)

/-- One event handler run on the globals. -/
def step (E : Engine) (a : Action) (s : State) : State :=
  match a with
  | .click => handleSoulClick s
  | .purchase upgradeId =>
    match purchaseUpgrade E upgradeId s with
    | .ok s2 => s2
    | .error _ => s
  | .tick => gameLoop s
  | .reset confirmation => (handleReset E confirmation s).1

/-- The events of a list, handled in order. -/
def run (E : Engine) (as : List Action) (s : State) : State :=
  as.foldl (fun s a => step E a s) s

/-- The Number is `NaN` or not below zero. -/
def NotNegative (x : F64) : Prop := x = F64.nan ∨ F64.ge x (.fin 0) = true

/-- A finite value is one of the Numbers: rounding leaves it as it is. -/
def IsDouble : F64 → Prop
  | F64.fin q => round q = F64.fin q
  | _ => True

/-- What every handler keeps: the array is the catalog, `gold` and `dt` are
`NaN` or not below zero, `gps` is not below zero, a finite `dt` is a Number. -/
def Inv (s : State) : Prop :=
  IsCatalog s.upgrades ∧ NotNegative s.gold ∧ F64.ge s.gps (.fin 0) = true ∧
    NotNegative s.dt ∧ IsDouble s.dt

/-- The value of the literal `1.15`: the Number nearest to `23/20`, a little
below it. -/
def onePointOneFive : ℚ := 5179139571476070 / 4503599627370496

/-- An engine whose `Math.pow(1.15, n)` for a natural `n > 0` is within
`2 ^ (-50)` relative of the exact power, and is `+Infinity` only when the exact
power is at least `2 ^ 1023`. -/
def PowAccurate (E : Engine) : Prop :=
  ∀ n : ℕ, 0 < n →
    (∃ p : ℚ, E.pow onePointOneFive n = F64.fin p ∧
      |p - onePointOneFive ^ n| ≤ onePointOneFive ^ n / 2 ^ 50) ∨
    (E.pow onePointOneFive n = F64.inf false ∧ (2 : ℚ) ^ 1023 ≤ onePointOneFive ^ n)

end IEEE

/-! ## Lemmas on the upgrades array -/

theorem find_of_mem_nodup {us : List Upgrade} (hn : (us.map Upgrade.id).Nodup) {u : Upgrade}
    (hu : u ∈ us) : us.find? (fun v => v.id = u.id) = some u := by
  induction us with
  | nil => cases hu
  | cons v vs ih =>
    rw [List.map_cons, List.nodup_cons] at hn
    rcases List.mem_cons.1 hu with h | h
    · subst h; simp
    · have hne : v.id ≠ u.id := by
        intro he
        exact hn.1 (he ▸ List.mem_map_of_mem Upgrade.id h)
      rw [List.find?_cons_of_neg _ (by simpa using hne)]
      exact ih hn.2 h

theorem isCatalog_nodup {us : List Upgrade} (h : IsCatalog us) : (us.map Upgrade.id).Nodup := by
  have : us.map Upgrade.id = (us.map Upgrade.fixed).map Prod.fst := by
    simp [List.map_map, Function.comp_def, Upgrade.fixed]
  rw [this, h]
  decide

theorem find_incrementCount_same (upgradeId : String) (us : List Upgrade) :
    (incrementCount upgradeId us).find? (fun v => v.id = upgradeId)
      = (us.find? (fun v => v.id = upgradeId)).map (fun u => { u with count := u.count + 1 }) := by
  induction us with
  | nil => rfl
  | cons v vs ih =>
    by_cases h : v.id = upgradeId
    · simp [incrementCount, h]
    · simp [incrementCount, h, ih]

theorem find_incrementCount_other (upgradeId other : String) (h : other ≠ upgradeId)
    (us : List Upgrade) :
    (incrementCount upgradeId us).find? (fun v => v.id = other)
      = us.find? (fun v => v.id = other) := by
  induction us with
  | nil => rfl
  | cons v vs ih =>
    by_cases hv : v.id = upgradeId
    · have hne : ¬ v.id = other := fun he => h (he.symm.trans hv)
      rw [incrementCount, if_pos hv, List.find?_cons_of_neg _ (by simpa using hne),
        List.find?_cons_of_neg _ (by simpa using hne)]
    · rw [incrementCount, if_neg hv]
      by_cases ho : v.id = other
      · rw [List.find?_cons_of_pos _ (by simpa using ho),
          List.find?_cons_of_pos _ (by simpa using ho)]
      · rw [List.find?_cons_of_neg _ (by simpa using ho),
          List.find?_cons_of_neg _ (by simpa using ho), ih]

theorem incrementCount_fixed (upgradeId : String) (us : List Upgrade) :
    (incrementCount upgradeId us).map Upgrade.fixed = us.map Upgrade.fixed := by
  induction us with
  | nil => rfl
  | cons v vs ih =>
    by_cases h : v.id = upgradeId
    · simp [incrementCount, h, Upgrade.fixed]
    · simp [incrementCount, h, ih]

/-! ## Purchase -/

/-- C1: in a state whose array is the catalog, `purchaseUpgrade(u.id)` for an entry
`u` with `cost = calculateCost(u)`: when `gold >= cost` it returns with
`gold - cost`, owned count `u.count + 1` and `gps + u.gps`; when `gold < cost` it
returns the state as it was.  `dt` and the owned counts of the other ids are
the same in both cases. -/
theorem purchaseUpgrade_catalog (s : State) (u : Upgrade)
    (hs : IsCatalog s.upgrades) (hu : u ∈ s.upgrades) :
    ∃ cost : ℤ, calculateCost (some u) = .ok cost ∧ ownedCount s u.id = u.count ∧
      (s.gold ≥ (cost : ℚ) → ∃ s2 : State, purchaseUpgrade u.id s = .ok s2 ∧
          s2.gold = s.gold - (cost : ℚ) ∧ ownedCount s2 u.id = u.count + 1 ∧
          s2.gps = s.gps + u.gps ∧ s2.dt = s.dt ∧
          (∀ other : String, other ≠ u.id → ownedCount s2 other = ownedCount s other) ∧
          IsCatalog s2.upgrades) ∧
      (s.gold < (cost : ℚ) → purchaseUpgrade u.id s = .ok s) := by
  have hf := find_of_mem_nodup (isCatalog_nodup hs) hu
  refine ⟨⌈u.baseCost * (23 / 20 : ℚ) ^ u.count⌉, rfl, ?_, ?_, ?_⟩
  · simp [ownedCount, hf]
  · intro hge
    refine ⟨{ s with gold := s.gold - ((⌈u.baseCost * (23 / 20 : ℚ) ^ u.count⌉ : ℤ) : ℚ),
                     gps := s.gps + u.gps,
                     upgrades := incrementCount u.id s.upgrades }, ?_, rfl, ?_, rfl, rfl, ?_, ?_⟩
    · simp only [purchaseUpgrade, hf, calculateCost]
      rw [if_pos hge]
    · simp [ownedCount, find_incrementCount_same, hf]
    · intro other ho
      simp only [ownedCount, find_incrementCount_other u.id other ho]
    · show (incrementCount u.id s.upgrades).map Upgrade.fixed = _
      rw [incrementCount_fixed]; exact hs
  · intro hlt
    simp only [purchaseUpgrade, hf, calculateCost]
    rw [if_neg (not_le.2 hlt)]

/-- Scenarios 2 and 3 of the specification: Flowey not yet owned, `gold = 15`
buys it, `gold = 14` does not. -/
theorem purchaseUpgrade_catalog_witness :
    IsCatalog (State.mk 15 0 0 upgrades).upgrades ∧
    (Upgrade.mk "flowey" "Flowey" 15 1 0) ∈ (State.mk 15 0 0 upgrades).upgrades ∧
    (∃ s2 : State, purchaseUpgrade "flowey" (State.mk 15 0 0 upgrades) = .ok s2 ∧
      s2.gold = 0 ∧ s2.gps = 1 ∧ ownedCount s2 "flowey" = 1 ∧ s2.dt = 0) ∧
    purchaseUpgrade "flowey" (State.mk 14 0 0 upgrades) = .ok (State.mk 14 0 0 upgrades) := by
  have h15 := purchaseUpgrade_catalog (State.mk 15 0 0 upgrades)
    (Upgrade.mk "flowey" "Flowey" 15 1 0) (by decide) (by decide)
  have h14 := purchaseUpgrade_catalog (State.mk 14 0 0 upgrades)
    (Upgrade.mk "flowey" "Flowey" 15 1 0) (by decide) (by decide)
  obtain ⟨c15, hc15, -, hbuy, -⟩ := h15
  obtain ⟨c14, hc14, -, -, hno⟩ := h14
  have e15 : c15 = 15 := by
    simp [calculateCost] at hc15; exact hc15.symm
  have e14 : c14 = 15 := by
    simp [calculateCost] at hc14; exact hc14.symm
  subst e15; subst e14
  refine ⟨by decide, by decide, ?_, ?_⟩
  · obtain ⟨s2, h2, hg, hc, hp, hd, -, -⟩ := hbuy (by norm_num)
    exact ⟨s2, h2, by rw [hg]; norm_num, by rw [hp]; norm_num, hc, hd⟩
  · exact hno (by norm_num)

/-- Without an entry for the id, `purchaseUpgrade` throws in `calculateCost`. -/
theorem purchaseUpgrade_of_find_none (upgradeId : String) (s : State)
    (h : s.upgrades.find? (fun u => u.id = upgradeId) = none) :
    purchaseUpgrade upgradeId s = .error .typeError := by
  simp only [purchaseUpgrade, h, calculateCost]

/-- C2 (failing input): `purchaseUpgrade('asgore')` in the start state does not
return: `calculateCost(undefined)` throws a `TypeError` before the test
`upgrade && ...` is reached. -/
theorem purchaseUpgrade_unknown_throws :
    purchaseUpgrade "asgore" (initialState 0) = .error .typeError := by
  apply purchaseUpgrade_of_find_none
  decide

/-! ## Prestige reset -/

theorem icbrtFuel_spec : ∀ f n : ℕ, n ≤ f →
    icbrtFuel f n ^ 3 ≤ n ∧ n < (icbrtFuel f n + 1) ^ 3 := by
  intro f
  induction f with
  | zero =>
    intro n hn
    have : n = 0 := Nat.le_zero.1 hn
    subst this
    simp [icbrtFuel]
  | succ f ih =>
    intro n hn
    by_cases h0 : n = 0
    · subst h0; simp [icbrtFuel]
    · have hdiv : n / 8 ≤ f := by omega
      obtain ⟨hlo, hhi⟩ := ih (n / 8) hdiv
      simp only [icbrtFuel, if_neg h0]
      set r0 := icbrtFuel f (n / 8) with hr0
      have hlo2 : (2 * r0) ^ 3 ≤ n := by
        have : (2 * r0) ^ 3 = 8 * r0 ^ 3 := by ring
        have h8 : 8 * (n / 8) ≤ n := Nat.mul_div_le n 8
        omega
      have hhi2 : n < (2 * r0 + 1 + 1) ^ 3 := by
        have : (2 * r0 + 1 + 1) ^ 3 = 8 * (r0 + 1) ^ 3 := by ring
        have h8 : n < 8 * (n / 8 + 1) := by omega
        omega
      by_cases hc : (2 * r0 + 1) ^ 3 ≤ n
      · rw [if_pos hc]; exact ⟨hc, hhi2⟩
      · rw [if_neg hc]; exact ⟨hlo2, not_le.1 hc⟩

theorem icbrt_spec (n : ℕ) : icbrt n ^ 3 ≤ n ∧ n < (icbrt n + 1) ^ 3 :=
  icbrtFuel_spec n n le_rfl

theorem le_icbrt_iff (j n : ℕ) : j ≤ icbrt n ↔ j ^ 3 ≤ n := by
  obtain ⟨hlo, hhi⟩ := icbrt_spec n
  constructor
  · intro h
    exact le_trans (Nat.pow_le_pow_left h 3) hlo
  · intro h
    by_contra hlt
    have h1 : icbrt n + 1 ≤ j := by omega
    have h2 : (icbrt n + 1) ^ 3 ≤ j ^ 3 := Nat.pow_le_pow_left h1 3
    omega

theorem floorCbrt_of_nonneg (x : ℚ) (hx : 0 ≤ x) :
    ∃ k : ℕ, floorCbrt x = (k : ℤ) ∧ ∀ j : ℕ, (j : ℚ) ^ 3 ≤ x ↔ j ≤ k := by
  refine ⟨icbrt ⌊x⌋.toNat, by simp [floorCbrt, hx], fun j => ?_⟩
  have hfl : (0 : ℤ) ≤ ⌊x⌋ := Int.floor_nonneg.2 hx
  rw [le_icbrt_iff]
  have h1 : ((j : ℚ) ^ 3 ≤ x) ↔ ((j ^ 3 : ℕ) : ℤ) ≤ ⌊x⌋ := by
    rw [Int.le_floor]; push_cast; rfl
  rw [h1]
  omega

theorem calculateDtOnReset_of_ge (s : State) (h : (1000000 : ℚ) ≤ s.gold) :
    ∃ k : ℕ, calculateDtOnReset s = (k : ℤ) ∧ 1 ≤ k ∧
      ∀ j : ℕ, (j : ℚ) ^ 3 * 1000000 ≤ s.gold ↔ j ≤ k := by
  have hx : (0 : ℚ) ≤ s.gold / RESET_THRESHOLD := by
    unfold RESET_THRESHOLD; positivity
  obtain ⟨k, hk, hmax⟩ := floorCbrt_of_nonneg _ hx
  have hiff : ∀ j : ℕ, (j : ℚ) ^ 3 * 1000000 ≤ s.gold ↔ j ≤ k := by
    intro j
    rw [← hmax j, RESET_THRESHOLD, le_div_iff₀ (by norm_num)]
  refine ⟨k, ?_, ?_, hiff⟩
  · unfold calculateDtOnReset
    rw [if_neg (not_lt.2 (by simpa [RESET_THRESHOLD] using h)), hk]
  · exact (hiff 1).1 (by simpa using h)

theorem handleReset_of_ge (s : State) (st : Storage) (h : (1000000 : ℚ) ≤ s.gold) :
    ∃ k : ℕ, calculateDtOnReset s = (k : ℤ) ∧ 1 ≤ k ∧
      (∀ j : ℕ, (j : ℚ) ^ 3 * 1000000 ≤ s.gold ↔ j ≤ k) ∧
      handleReset true s st =
        ({ gold := 0, gps := 0, dt := s.dt + (k : ℤ),
           upgrades := s.upgrades.map (fun u => { u with count := 0 }) },
         setItem st dtKey (numberToString (s.dt + (k : ℤ)))) := by
  obtain ⟨k, hk, h1, hiff⟩ := calculateDtOnReset_of_ge s h
  have hpos : ¬ ((k : ℤ) ≤ 0) := by omega
  refine ⟨k, hk, h1, hiff, ?_⟩
  simp only [handleReset, hk, if_neg hpos, if_true]

/-! ## Reachable states -/

theorem purchaseUpgrade_ok_cases {upgradeId : String} {s s2 : State}
    (h : purchaseUpgrade upgradeId s = .ok s2) :
    s2 = s ∨ ∃ u : Upgrade, ∃ c : ℤ, s.upgrades.find? (fun v => v.id = upgradeId) = some u ∧
      (c : ℚ) ≤ s.gold ∧
      s2 = { s with gold := s.gold - (c : ℚ), gps := s.gps + u.gps,
                    upgrades := incrementCount upgradeId s.upgrades } := by
  unfold purchaseUpgrade at h
  cases hf : s.upgrades.find? (fun v => v.id = upgradeId) with
  | none => simp [hf, calculateCost] at h
  | some u =>
    simp only [hf, calculateCost] at h
    split_ifs at h with hg
    · right
      refine ⟨u, _, rfl, hg, ?_⟩
      cases h; rfl
    · left; cases h; rfl

theorem gps_pos_of_isCatalog {us : List Upgrade} (h : IsCatalog us) {u : Upgrade} (hu : u ∈ us) :
    0 < u.gps := by
  have hm : u.fixed ∈ upgrades.map Upgrade.fixed := h ▸ List.mem_map_of_mem Upgrade.fixed hu
  simp only [upgrades, Upgrade.fixed, List.map_cons, List.map_nil, List.mem_cons,
    List.mem_singleton, List.not_mem_nil, or_false, Prod.mk.injEq] at hm
  rcases hm with h | h | h | h | h | h <;> (rw [h.2.2.2]; norm_num)

theorem reset_fixed (us : List Upgrade) :
    (us.map (fun u => { u with count := 0 })).map Upgrade.fixed = us.map Upgrade.fixed := by
  simp [List.map_map, Function.comp_def, Upgrade.fixed]

theorem step_isCatalog (a : Action) (w : State × Storage) (h : IsCatalog w.1.upgrades) :
    IsCatalog (step a w).1.upgrades := by
  cases a with
  | click => exact h
  | tick => exact h
  | purchase upgradeId =>
    simp only [step]
    cases hp : purchaseUpgrade upgradeId w.1 with
    | error e => exact h
    | ok s2 =>
      rcases purchaseUpgrade_ok_cases hp with rfl | ⟨u, c, -, -, rfl⟩
      · exact h
      · show (incrementCount upgradeId w.1.upgrades).map Upgrade.fixed = _
        rw [incrementCount_fixed]; exact h
  | reset confirmation =>
    simp only [step, handleReset]
    split_ifs with h1 h2
    · exact h
    · show (w.1.upgrades.map (fun u => { u with count := 0 })).map Upgrade.fixed = _
      rw [reset_fixed]; exact h
    · exact h

/-! ## GPS bookkeeping -/

theorem totalGps_incrementCount {upgradeId : String} {us : List Upgrade} {u : Upgrade}
    (hf : us.find? (fun v => v.id = upgradeId) = some u) :
    totalGps (incrementCount upgradeId us) = totalGps us + u.gps := by
  induction us with
  | nil => simp at hf
  | cons v vs ih =>
    by_cases hv : v.id = upgradeId
    · rw [List.find?_cons_of_pos _ (by simpa using hv)] at hf
      cases hf
      simp only [incrementCount, if_pos hv, totalGps, List.map_cons, List.sum_cons]
      push_cast; ring
    · rw [List.find?_cons_of_neg _ (by simpa using hv)] at hf
      have := ih hf
      simp only [totalGps] at this
      simp only [incrementCount, if_neg hv, totalGps, List.map_cons, List.sum_cons, this]
      ring

theorem totalGps_reset (us : List Upgrade) :
    totalGps (us.map (fun u => { u with count := 0 })) = 0 := by
  induction us with
  | nil => rfl
  | cons v vs ih =>
    simp only [totalGps] at ih
    simp only [totalGps, List.map_cons, List.sum_cons, ih]
    simp

theorem totalGps_eq_zero_iff {us : List Upgrade} (hpos : ∀ u ∈ us, 0 < u.gps) :
    0 ≤ totalGps us ∧ (totalGps us = 0 ↔ ∀ u ∈ us, u.count = 0) := by
  induction us with
  | nil => simp [totalGps]
  | cons v vs ih =>
    obtain ⟨hnn, hiff⟩ := ih (fun u hu => hpos u (List.mem_cons_of_mem v hu))
    have hv : 0 < v.gps := hpos v (List.mem_cons_self v vs)
    have hterm : (0 : ℚ) ≤ (v.count : ℚ) * v.gps := by positivity
    have hsum : totalGps (v :: vs) = (v.count : ℚ) * v.gps + totalGps vs := by
      simp [totalGps]
    refine ⟨by rw [hsum]; linarith, ?_⟩
    rw [hsum]
    constructor
    · intro h0
      have h1 : (v.count : ℚ) * v.gps = 0 := by linarith
      have h2 : totalGps vs = 0 := by linarith
      have h3 : v.count = 0 := by
        rcases mul_eq_zero.1 h1 with h | h
        · exact_mod_cast h
        · exact absurd h (ne_of_gt hv)
      intro u hu
      rcases List.mem_cons.1 hu with rfl | hu
      · exact h3
      · exact hiff.1 h2 u hu
    · intro hall
      have h3 : v.count = 0 := hall v (List.mem_cons_self v vs)
      have h2 : totalGps vs = 0 := hiff.2 (fun u hu => hall u (List.mem_cons_of_mem v hu))
      rw [h3, h2]; simp

theorem step_gps (a : Action) (w : State × Storage) (h : w.1.gps = totalGps w.1.upgrades) :
    (step a w).1.gps = totalGps (step a w).1.upgrades := by
  cases a with
  | click => exact h
  | tick => exact h
  | purchase upgradeId =>
    simp only [step]
    cases hpu : purchaseUpgrade upgradeId w.1 with
    | error e => exact h
    | ok s2 =>
      rcases purchaseUpgrade_ok_cases hpu with rfl | ⟨u, c, hf, -, rfl⟩
      · exact h
      · show w.1.gps + u.gps = totalGps (incrementCount upgradeId w.1.upgrades)
        rw [totalGps_incrementCount hf, h]
  | reset confirmation =>
    simp only [step, handleReset]
    split_ifs with h1 h2
    · exact h
    · show (0 : ℚ) = totalGps (w.1.upgrades.map (fun u => { u with count := 0 }))
      rw [totalGps_reset]
    · exact h

theorem run_gps (as : List Action) (w : State × Storage)
    (h : w.1.gps = totalGps w.1.upgrades ∧ IsCatalog w.1.upgrades) :
    (run as w).1.gps = totalGps (run as w).1.upgrades ∧ IsCatalog (run as w).1.upgrades := by
  induction as generalizing w with
  | nil => exact h
  | cons a as ih => exact ih (step a w) ⟨step_gps a w h.1, step_isCatalog a w h.2⟩

/-- C10: in every state reached from the start state (`gold = 0`, `gps = 0`,
nothing owned, any `dt`) by clicks, purchases, ticks and resets, the array is
still the six catalog entries and `gps` is the sum over them of
`count * gps`; `gps = 0` exactly when every owned count is `0`. -/
theorem reachable_gps_bookkeeping (d0 : ℤ) (st : Storage) (as : List Action) :
    IsCatalog (run as (initialState d0, st)).1.upgrades ∧
    (run as (initialState d0, st)).1.gps = totalGps (run as (initialState d0, st)).1.upgrades ∧
    ((run as (initialState d0, st)).1.gps = 0 ↔
      ∀ u ∈ (run as (initialState d0, st)).1.upgrades, u.count = 0) := by
  have h0 : (initialState d0, st).1.gps = totalGps (initialState d0, st).1.upgrades ∧
      IsCatalog (initialState d0, st).1.upgrades := by
    refine ⟨?_, rfl⟩
    simp [initialState, totalGps, upgrades]
  obtain ⟨hg, hc⟩ := run_gps as _ h0
  refine ⟨hc, hg, ?_⟩
  rw [hg]
  exact (totalGps_eq_zero_iff (fun u hu => gps_pos_of_isCatalog hc hu)).2

/-- Fifteen clicks and the purchase of Flowey: `gps` is the sum of
`count * gps` over the array. -/
theorem reachable_gps_bookkeeping_witness :
    (run (List.replicate 15 Action.click ++ [Action.purchase "flowey"])
        (initialState 0, [])).1.gps
      = totalGps (run (List.replicate 15 Action.click ++ [Action.purchase "flowey"])
        (initialState 0, [])).1.upgrades :=
  (reachable_gps_bookkeeping 0 []
    (List.replicate 15 Action.click ++ [Action.purchase "flowey"])).2.1

/-! ## Start-up and the stored value -/


theorem digitChar_spec (m : ℕ) (hm : m < 10) :
    (Nat.digitChar m).isDigit = true ∧ (Nat.digitChar m).toNat - '0'.toNat = m ∧
      isStrWhiteSpaceChar (Nat.digitChar m) = false ∧ Nat.digitChar m ≠ '-' ∧
      Nat.digitChar m ≠ '+' := by
  interval_cases m <;> decide

/-- The characters `Nat.toDigitsCore 10` puts in front of its accumulator. -/
theorem toDigitsCore_spec : ∀ fuel n : ℕ, ∀ acc : List Char, n < fuel →
    ∃ ds : List Char, Nat.toDigitsCore 10 fuel n acc = ds ++ acc ∧ ds ≠ [] ∧
      (∀ c ∈ ds, ∃ m : ℕ, m < 10 ∧ c = Nat.digitChar m) ∧ digitsValue ds = n := by
  intro fuel
  induction fuel with
  | zero => intro n acc h; omega
  | succ fuel ih =>
    intro n acc h
    have hm : n % 10 < 10 := Nat.mod_lt _ (by norm_num)
    by_cases h0 : n / 10 = 0
    · refine ⟨[Nat.digitChar (n % 10)], ?_, by simp, ?_, ?_⟩
      · simp [Nat.toDigitsCore, h0]
      · intro c hc
        exact ⟨n % 10, hm, by simpa using hc⟩
      · have := (digitChar_spec _ hm).2.1
        simp only [digitsValue, List.foldl_cons, List.foldl_nil, this]
        omega
    · obtain ⟨ds, hds, -, hall, hval⟩ := ih (n / 10) (Nat.digitChar (n % 10) :: acc) (by omega)
      refine ⟨ds ++ [Nat.digitChar (n % 10)], ?_, by simp, ?_, ?_⟩
      · simp [Nat.toDigitsCore, h0, hds]
      · intro c hc
        rcases List.mem_append.1 hc with hc | hc
        · exact hall c hc
        · exact ⟨n % 10, hm, by simpa using hc⟩
      · have := (digitChar_spec _ hm).2.1
        simp only [digitsValue] at hval
        simp only [digitsValue, List.foldl_append, List.foldl_cons, List.foldl_nil, hval, this]
        omega

theorem parseInt_digits (ds : List Char) (hne : ds ≠ [])
    (hall : ∀ c ∈ ds, ∃ m : ℕ, m < 10 ∧ c = Nat.digitChar m) :
    parseInt (String.mk ds) = Num.int (digitsValue ds : ℤ) := by
  cases ds with
  | nil => exact absurd rfl hne
  | cons c rest =>
    obtain ⟨m, hm, hc⟩ := hall c (List.mem_cons_self c rest)
    obtain ⟨-, -, hws, hminus, hplus⟩ := digitChar_spec m hm
    rw [← hc] at hws hminus hplus
    have htake : (c :: rest).takeWhile Char.isDigit = c :: rest := by
      rw [List.takeWhile_eq_self_iff]
      intro d hd
      obtain ⟨k, hk, rfl⟩ := hall d hd
      exact (digitChar_spec k hk).1
    have hdrop : (c :: rest).dropWhile isStrWhiteSpaceChar = c :: rest := by
      simp [List.dropWhile, hws]
    have hl : (String.mk (c :: rest)).toList = c :: rest := rfl
    simp only [parseInt, hl, hdrop, if_neg hminus, hminus, hplus, or_self, if_false, htake]
    simp

theorem natToString_of_lt (n : ℕ) (h : n < 10 ^ 21) :
    natToString n = String.mk (Nat.toDigits 10 n) := by
  have hlen : (Nat.toDigits 10 n).length ≤ 21 :=
    Nat.toDigitsCore_length 10 (by norm_num) (n + 1) n 21 h (by norm_num)
  simp only [natToString, if_pos hlen]

theorem parseInt_natToString (n : ℕ) (h : n < 10 ^ 21) :
    natToString n ≠ "" ∧ parseInt (natToString n) = Num.int (n : ℤ) := by
  obtain ⟨ds, hds, hne, hall, hval⟩ := toDigitsCore_spec (n + 1) n [] (Nat.lt_succ_self n)
  rw [List.append_nil] at hds
  have hd : Nat.toDigits 10 n = ds := hds
  rw [natToString_of_lt n h, hd]
  refine ⟨?_, ?_⟩
  · intro he
    apply hne
    have := congrArg String.toList he
    simpa using this
  · rw [parseInt_digits ds hne hall, hval]

theorem getItem_setItem (st : Storage) (key value : String) :
    getItem (setItem st key value) key = some value := by
  simp [getItem, setItem, List.lookup]

/-- C9 (amended): when a confirmed reset at `gold >= 1,000,000` leaves
`dt = k` with `0 <= k < 10 ^ 21`, the string it stores under
`'undertaleClickerDt'` is read back by `init` as `k`. -/
theorem dt_round_trip (s : State) (st : Storage) (k : ℤ) (hg : (1000000 : ℚ) ≤ s.gold)
    (hk : (handleReset true s st).1.dt = k) (h0 : 0 ≤ k) (hlt : k < 10 ^ 21) :
    init (handleReset true s st).2 = Num.int k := by
  obtain ⟨g, -, -, -, heq⟩ := handleReset_of_ge s st hg
  rw [heq] at hk ⊢
  simp only at hk ⊢
  rw [hk]
  have hn : k.natAbs < 10 ^ 21 := by omega
  obtain ⟨hne, hparse⟩ := parseInt_natToString k.natAbs hn
  have hstr : numberToString k = natToString k.natAbs := by
    simp only [numberToString, if_neg (not_lt.2 h0)]
  simp only [init, getItem_setItem, hstr, if_neg hne, hparse]
  congr 1
  omega

/-- C9 (counterexample): a confirmed reset from `dt = 10 ^ 21 - 2 ^ 17` with
`gold = 2 ^ 51 * 10 ^ 6` gains `2 ^ 17` and leaves `dt = 10 ^ 21`; the stored
string is `"1e+21"`, and `init` reads it back as `1`. -/
theorem dt_round_trip_counterexample :
    (handleReset true (State.mk 2251799813685248000000 0 999999999999999868928 upgrades) []).1.dt
      = 10 ^ 21 ∧
    (handleReset true (State.mk 2251799813685248000000 0 999999999999999868928 upgrades) []).2
      = [(dtKey, "1e+21")] ∧
    init (handleReset true (State.mk 2251799813685248000000 0 999999999999999868928 upgrades) []).2
      = Num.int 1 ∧
    Num.int 1 ≠ Num.int (10 ^ 21) := by
  have hk : calculateDtOnReset
      (State.mk 2251799813685248000000 0 999999999999999868928 upgrades) = 131072 := by
    have hx : (2251799813685248000000 : ℚ) / RESET_THRESHOLD = ((2251799813685248 : ℕ) : ℚ) := by
      norm_num [RESET_THRESHOLD]
    have hi : icbrt 2251799813685248 = 131072 := by decide
    have hnlt : ¬ ((2251799813685248000000 : ℚ) < RESET_THRESHOLD) := by
      norm_num [RESET_THRESHOLD]
    simp only [calculateDtOnReset, if_neg hnlt, hx, floorCbrt, Nat.cast_nonneg, if_true,
      Int.floor_natCast, Int.toNat_ofNat, hi]
    norm_num
  have hs : numberToString 1000000000000000000000 = "1e+21" := by decide
  have hh : handleReset true
      (State.mk 2251799813685248000000 0 999999999999999868928 upgrades) []
      = (State.mk 0 0 (10 ^ 21) (upgrades.map (fun u => { u with count := 0 })),
         [(dtKey, "1e+21")]) := by
    simp only [handleReset, hk]
    norm_num [setItem, hs]
  rw [hh]
  refine ⟨rfl, rfl, by decide, by decide⟩

/-- A confirmed reset at `gold = 8,000,000`, `dt = 5` stores `"7"`, which `init`
reads back as `7`. -/
theorem dt_round_trip_witness :
    (1000000 : ℚ) ≤ (State.mk 8000000 40 5 upgrades).gold ∧
    (handleReset true (State.mk 8000000 40 5 upgrades) [(dtKey, "5")]).1.dt = 7 ∧
    init (handleReset true (State.mk 8000000 40 5 upgrades) [(dtKey, "5")]).2 = Num.int 7 := by
  have hk : calculateDtOnReset (State.mk 8000000 40 5 upgrades) = 2 := by
    have hx : (8000000 : ℚ) / RESET_THRESHOLD = ((8 : ℕ) : ℚ) := by
      norm_num [RESET_THRESHOLD]
    have hi : icbrt 8 = 2 := by decide
    have hnlt : ¬ ((8000000 : ℚ) < RESET_THRESHOLD) := by
      norm_num [RESET_THRESHOLD]
    simp only [calculateDtOnReset, if_neg hnlt, hx, floorCbrt, Nat.cast_nonneg, if_true,
      Int.floor_natCast, Int.toNat_ofNat, hi]
    norm_num
  have hdt : (handleReset true (State.mk 8000000 40 5 upgrades) [(dtKey, "5")]).1.dt = 7 := by
    simp only [handleReset, hk]
    norm_num
  exact ⟨by norm_num, hdt,
    dt_round_trip (State.mk 8000000 40 5 upgrades) [(dtKey, "5")] 7 (by norm_num) hdt
      (by norm_num) (by norm_num)⟩

/-- C7 (counterexample): with `"12abc"` stored, `dt` after `init` is `12`, not `0`;
with `"-3"` it is `-3`, with `"abc"` it is `NaN`. -/
theorem init_malformed_counterexample :
    init [(dtKey, "12abc")] = Num.int 12 ∧ Num.int 12 ≠ Num.int 0 ∧
    init [(dtKey, "-3")] = Num.int (-3) ∧ init [(dtKey, "abc")] = Num.nan := by
  decide

/-- C7 (amended): after `init`, `dt` is `0` when nothing or the empty string is
stored; any other stored string is handed to `parseInt` unchecked and `dt` is
its result. -/
theorem init_dt (st : Storage) :
    ((getItem st dtKey = none ∨ getItem st dtKey = some "") → init st = Num.int 0) ∧
    (∀ savedDt : String, getItem st dtKey = some savedDt → savedDt ≠ "" →
      init st = parseInt savedDt) := by
  refine ⟨?_, ?_⟩
  · rintro (h | h) <;> simp [init, h]
  · intro savedDt h hne
    simp [init, h, hne]

/-- Nothing stored gives `dt = 0`, the empty string gives `dt = 0`, and
`"12abc"` gives `parseInt("12abc", 10) = 12`. -/
theorem init_dt_witness :
    init [] = Num.int 0 ∧ init [(dtKey, "")] = Num.int 0 ∧
    init [(dtKey, "12abc")] = parseInt "12abc" ∧ parseInt "12abc" = Num.int 12 :=
  ⟨(init_dt []).1 (Or.inl (by decide)),
   (init_dt [(dtKey, "")]).1 (Or.inr (by decide)),
   (init_dt [(dtKey, "12abc")]).2 "12abc" (by decide) (by decide),
   by decide⟩

namespace IEEE

/-! ## Rounding to the nearest Number -/

theorem log2Bound_spec (n : ℕ) : ∀ f k : ℕ, n < 2 ^ (k * 2 ^ f) → n < 2 ^ log2Bound f n k := by
  intro f
  induction f with
  | zero => intro k h; simpa [log2Bound] using h
  | succ f ih =>
    intro k h
    by_cases hk : n < 2 ^ k
    · simp only [log2Bound, if_pos hk]; exact hk
    · simp only [log2Bound, if_neg hk]
      apply ih
      have : 2 * k * 2 ^ f = k * 2 ^ (f + 1) := by ring
      rw [this]; exact h

theorem log2Bisect_spec (n : ℕ) : ∀ f lo hi : ℕ, hi ≤ lo + f → lo < hi →
    2 ^ lo ≤ n → n < 2 ^ hi →
    2 ^ log2Bisect f n lo hi ≤ n ∧ n < 2 ^ (log2Bisect f n lo hi + 1) := by
  intro f
  induction f with
  | zero => intro lo hi h1 h2; omega
  | succ f ih =>
    intro lo hi h1 h2 hlo hhi
    by_cases hc : hi ≤ lo + 1
    · have : hi = lo + 1 := by omega
      simp only [log2Bisect, if_pos hc]
      exact ⟨hlo, this ▸ hhi⟩
    · simp only [log2Bisect, if_neg hc]
      by_cases hm : 2 ^ ((lo + hi) / 2) ≤ n
      · rw [if_pos hm]
        exact ih _ _ (by omega) (by omega) hm hhi
      · rw [if_neg hm]
        exact ih _ _ (by omega) (by omega) hlo (not_le.1 hm)

theorem natLog2_spec (n : ℕ) (hn : 0 < n) :
    2 ^ natLog2 n ≤ n ∧ n < 2 ^ (natLog2 n + 1) := by
  have hb : n < 2 ^ log2Bound n n 1 := by
    apply log2Bound_spec
    calc n < 2 ^ n := Nat.lt_two_pow n
      _ ≤ 2 ^ (1 * 2 ^ n) := Nat.pow_le_pow_right (by norm_num) (by
          rw [one_mul]; exact le_of_lt (Nat.lt_two_pow n))
  have hpos : 0 < log2Bound n n 1 := by
    by_contra h0
    have : log2Bound n n 1 = 0 := by omega
    rw [this] at hb
    omega
  exact log2Bisect_spec n _ 0 _ (by omega) hpos (by simpa using hn) hb

theorem pow2_eq (e : ℤ) : pow2 e = (2 : ℚ) ^ e := by
  unfold pow2
  split_ifs with h
  · lift e to ℕ using h
    simp
  · have h2 : 0 ≤ -e := by omega
    obtain ⟨m, hm⟩ := Int.eq_ofNat_of_zero_le h2
    have he : e = -(m : ℤ) := by omega
    rw [he]
    simp

theorem pow2_pos (e : ℤ) : 0 < pow2 e := by
  rw [pow2_eq]; positivity

theorem zpow_two_le_iff (a b : ℤ) : (2 : ℚ) ^ a ≤ (2 : ℚ) ^ b ↔ a ≤ b :=
  zpow_le_zpow_iff_right₀ (by norm_num)

theorem zpow_two_lt_iff (a b : ℤ) : (2 : ℚ) ^ a < (2 : ℚ) ^ b ↔ a < b :=
  zpow_lt_zpow_iff_right₀ (by norm_num)

theorem ilog2_spec (q : ℚ) (hq : 0 < q) :
    (2 : ℚ) ^ ilog2 q ≤ q ∧ q < (2 : ℚ) ^ (ilog2 q + 1) := by
  have hnum : 0 < q.num := Rat.num_pos.2 hq
  have ha : 0 < q.num.natAbs := Int.natAbs_pos.2 (ne_of_gt hnum)
  have hb : 0 < q.den := q.den_pos
  obtain ⟨ha1, ha2⟩ := natLog2_spec _ ha
  obtain ⟨hb1, hb2⟩ := natLog2_spec _ hb
  set la := natLog2 q.num.natAbs
  set lb := natLog2 q.den
  have hqa : q = (q.num.natAbs : ℚ) / (q.den : ℚ) := by
    have h2 : (q.num.natAbs : ℚ) = (q.num : ℚ) := by
      rw [Nat.cast_natAbs, abs_of_pos hnum]
    rw [h2]; exact (Rat.num_div_den q).symm
  have hbq : (0 : ℚ) < (q.den : ℚ) := by exact_mod_cast hb
  have ha1q : (2 : ℚ) ^ (la : ℤ) ≤ (q.num.natAbs : ℚ) := by
    rw [zpow_natCast]; exact_mod_cast ha1
  have ha2q : (q.num.natAbs : ℚ) < (2 : ℚ) ^ ((la : ℤ) + 1) := by
    have : ((la : ℤ) + 1) = ((la + 1 : ℕ) : ℤ) := by push_cast; ring
    rw [this, zpow_natCast]; exact_mod_cast ha2
  have hb1q : (2 : ℚ) ^ (lb : ℤ) ≤ (q.den : ℚ) := by
    rw [zpow_natCast]; exact_mod_cast hb1
  have hb2q : (q.den : ℚ) < (2 : ℚ) ^ ((lb : ℤ) + 1) := by
    have : ((lb : ℤ) + 1) = ((lb + 1 : ℕ) : ℤ) := by push_cast; ring
    rw [this, zpow_natCast]; exact_mod_cast hb2
  have hupper : q < (2 : ℚ) ^ ((la : ℤ) - (lb : ℤ) + 1) := by
    have e : (2 : ℚ) ^ ((la : ℤ) - (lb : ℤ) + 1) = (2 : ℚ) ^ ((la : ℤ) + 1) / (2 : ℚ) ^ (lb : ℤ) := by
      rw [← zpow_sub₀ (by norm_num)]; congr 1; ring
    rw [e, hqa, div_lt_div_iff₀ hbq (by positivity)]
    calc (q.num.natAbs : ℚ) * (2 : ℚ) ^ (lb : ℤ) < (2 : ℚ) ^ ((la : ℤ) + 1) * (2 : ℚ) ^ (lb : ℤ) := by
          apply mul_lt_mul_of_pos_right ha2q (by positivity)
      _ ≤ (2 : ℚ) ^ ((la : ℤ) + 1) * (q.den : ℚ) := by
          apply mul_le_mul_of_nonneg_left hb1q (by positivity)
  have hlower : (2 : ℚ) ^ ((la : ℤ) - (lb : ℤ) - 1) ≤ q := by
    have e : (2 : ℚ) ^ ((la : ℤ) - (lb : ℤ) - 1) = (2 : ℚ) ^ (la : ℤ) / (2 : ℚ) ^ ((lb : ℤ) + 1) := by
      rw [← zpow_sub₀ (by norm_num)]; congr 1; ring
    rw [e, hqa, div_le_div_iff₀ (by positivity) hbq]
    calc (2 : ℚ) ^ (la : ℤ) * (q.den : ℚ) ≤ (q.num.natAbs : ℚ) * (q.den : ℚ) := by
          apply mul_le_mul_of_nonneg_right ha1q (le_of_lt hbq)
      _ ≤ (q.num.natAbs : ℚ) * (2 : ℚ) ^ ((lb : ℤ) + 1) := by
          apply mul_le_mul_of_nonneg_left (le_of_lt hb2q) (by positivity)
  unfold ilog2
  simp only
  split_ifs with hc
  · rw [pow2_eq] at hc
    exact ⟨hc, hupper⟩
  · rw [pow2_eq] at hc
    refine ⟨hlower, ?_⟩
    have : (la : ℤ) - (lb : ℤ) - 1 + 1 = (la : ℤ) - (lb : ℤ) := by ring
    rw [this]; exact not_le.1 hc

theorem ilog2_unique (q : ℚ) (e : ℤ) (h1 : (2 : ℚ) ^ e ≤ q) (h2 : q < (2 : ℚ) ^ (e + 1)) :
    ilog2 q = e := by
  have hq : 0 < q := lt_of_lt_of_le (by positivity) h1
  obtain ⟨s1, s2⟩ := ilog2_spec q hq
  have a1 : e < ilog2 q + 1 := (zpow_two_lt_iff _ _).1 (lt_of_le_of_lt h1 s2)
  have a2 : ilog2 q < e + 1 := (zpow_two_lt_iff _ _).1 (lt_of_le_of_lt s1 h2)
  omega

theorem ilog2_mono (p q : ℚ) (hp : 0 < p) (h : p ≤ q) : ilog2 p ≤ ilog2 q := by
  obtain ⟨s1, -⟩ := ilog2_spec p hp
  obtain ⟨-, t2⟩ := ilog2_spec q (lt_of_lt_of_le hp h)
  have : ilog2 p < ilog2 q + 1 := (zpow_two_lt_iff _ _).1 (lt_of_le_of_lt (le_trans s1 h) t2)
  omega

theorem roundHalfEven_cases (m : ℚ) : roundHalfEven m = ⌊m⌋ ∨ roundHalfEven m = ⌊m⌋ + 1 := by
  unfold roundHalfEven
  simp only
  split_ifs <;> simp

theorem roundHalfEven_sub_le (m : ℚ) : |((roundHalfEven m : ℤ) : ℚ) - m| ≤ 1 / 2 := by
  have h1 : ((⌊m⌋ : ℤ) : ℚ) ≤ m := Int.floor_le m
  have h2 : m < ((⌊m⌋ : ℤ) : ℚ) + 1 := Int.lt_floor_add_one m
  unfold roundHalfEven
  simp only
  rw [abs_le]
  split_ifs with a b c
  · constructor <;> linarith
  · push_cast; constructor <;> linarith
  · constructor <;> linarith
  · push_cast; constructor <;> linarith

theorem roundHalfEven_mono {m1 m2 : ℚ} (h : m1 ≤ m2) : roundHalfEven m1 ≤ roundHalfEven m2 := by
  have hf : ⌊m1⌋ ≤ ⌊m2⌋ := Int.floor_mono h
  rcases lt_or_eq_of_le hf with hlt | heq
  · rcases roundHalfEven_cases m1 with e1 | e1 <;> rcases roundHalfEven_cases m2 with e2 | e2 <;>
      omega
  · unfold roundHalfEven
    simp only
    rw [heq]
    have hr : m1 - ((⌊m2⌋ : ℤ) : ℚ) ≤ m2 - ((⌊m2⌋ : ℤ) : ℚ) := by linarith
    split_ifs <;> first | omega | (exfalso; linarith)

theorem roundHalfEven_intCast (z : ℤ) : roundHalfEven (z : ℚ) = z := by
  unfold roundHalfEven
  simp

theorem le_roundHalfEven {z : ℤ} {m : ℚ} (h : (z : ℚ) ≤ m) : z ≤ roundHalfEven m := by
  have := roundHalfEven_mono h
  rwa [roundHalfEven_intCast] at this

theorem roundHalfEven_le {z : ℤ} {m : ℚ} (h : m ≤ (z : ℚ)) : roundHalfEven m ≤ z := by
  have := roundHalfEven_mono h
  rwa [roundHalfEven_intCast] at this

theorem mul_ulp52 (E : ℤ) : (4503599627370496 : ℚ) * (2 : ℚ) ^ (E - 52) = (2 : ℚ) ^ E := by
  have h : (2 : ℚ) ^ E = (2 : ℚ) ^ (52 : ℤ) * (2 : ℚ) ^ (E - 52) := by
    rw [← zpow_add₀ (by norm_num)]; congr 1; ring
  rw [h]; norm_num

theorem mul_ulp53 (E : ℤ) : (9007199254740992 : ℚ) * (2 : ℚ) ^ (E - 52) = (2 : ℚ) ^ (E + 1) := by
  have h : (2 : ℚ) ^ (E + 1) = (2 : ℚ) ^ (53 : ℤ) * (2 : ℚ) ^ (E - 52) := by
    rw [← zpow_add₀ (by norm_num)]; congr 1; ring
  rw [h]; norm_num

/-- The exponent `roundMag` works at. -/
theorem roundMag_eq (q : ℚ) :
    roundMag q = (roundHalfEven (q / (2 : ℚ) ^ (max (ilog2 q) (-1022) - 52)) : ℚ)
      * (2 : ℚ) ^ (max (ilog2 q) (-1022) - 52) := by
  unfold roundMag
  simp only [pow2_eq]

theorem roundMag_nonneg {q : ℚ} (hq : 0 ≤ q) : 0 ≤ roundMag q := by
  rw [roundMag_eq]
  have h0 : ((0 : ℤ) : ℚ) ≤ q / (2 : ℚ) ^ (max (ilog2 q) (-1022) - 52) := by
    simp only [Int.cast_zero]; positivity
  have := le_roundHalfEven h0
  have h1 : (0 : ℚ) ≤ (roundHalfEven (q / (2 : ℚ) ^ (max (ilog2 q) (-1022) - 52)) : ℚ) := by
    exact_mod_cast this
  positivity

theorem roundMag_zero : roundMag 0 = 0 := by
  rw [roundMag_eq]; simp [roundHalfEven]

/-- A value at or above a power of two in the normal range rounds to at least
that power. -/
theorem le_roundMag {q : ℚ} {e : ℤ} (he : -1022 ≤ e) (h : (2 : ℚ) ^ e ≤ q) :
    (2 : ℚ) ^ e ≤ roundMag q := by
  have hq : 0 < q := lt_of_lt_of_le (by positivity) h
  obtain ⟨s1, s2⟩ := ilog2_spec q hq
  have hle : e ≤ ilog2 q := by
    have : e < ilog2 q + 1 := (zpow_two_lt_iff _ _).1 (lt_of_le_of_lt h s2)
    omega
  have hmax : max (ilog2 q) (-1022) = ilog2 q := max_eq_left (by omega)
  rw [roundMag_eq, hmax]
  set E := ilog2 q
  have hu : (0 : ℚ) < (2 : ℚ) ^ (E - 52) := by positivity
  have hm : (((2 : ℤ) ^ 52 : ℤ) : ℚ) ≤ q / (2 : ℚ) ^ (E - 52) := by
    rw [le_div_iff₀ hu]
    have : (((2 : ℤ) ^ 52 : ℤ) : ℚ) * (2 : ℚ) ^ (E - 52) = (2 : ℚ) ^ E := by
      push_cast; exact mul_ulp52 E
    rw [this]; exact s1
  have hn := le_roundHalfEven hm
  have hn2 : (((2 : ℤ) ^ 52 : ℤ) : ℚ) ≤ (roundHalfEven (q / (2 : ℚ) ^ (E - 52)) : ℚ) := by
    exact_mod_cast hn
  calc (2 : ℚ) ^ e ≤ (2 : ℚ) ^ E := (zpow_two_le_iff _ _).2 hle
    _ = (((2 : ℤ) ^ 52 : ℤ) : ℚ) * (2 : ℚ) ^ (E - 52) := by
        push_cast; exact (mul_ulp52 E).symm
    _ ≤ _ := mul_le_mul_of_nonneg_right hn2 (le_of_lt hu)

/-- The rounded value stays within the binade of `q`. -/
theorem roundMag_le {q : ℚ} (hq : 0 ≤ q) :
    roundMag q ≤ (2 : ℚ) ^ (max (ilog2 q) (-1022) + 1) := by
  rcases eq_or_lt_of_le hq with h0 | hpos
  · rw [← h0, roundMag_zero]; positivity
  obtain ⟨-, s2⟩ := ilog2_spec q hpos
  rw [roundMag_eq]
  set E := max (ilog2 q) (-1022)
  have hE : ilog2 q ≤ E := le_max_left _ _
  have hu : (0 : ℚ) < (2 : ℚ) ^ (E - 52) := by positivity
  have hq2 : q ≤ (2 : ℚ) ^ (E + 1) :=
    le_trans (le_of_lt s2) ((zpow_two_le_iff _ _).2 (by omega))
  have e53 : (((2 : ℤ) ^ 53 : ℤ) : ℚ) * (2 : ℚ) ^ (E - 52) = (2 : ℚ) ^ (E + 1) := by
    push_cast; exact mul_ulp53 E
  have hm : q / (2 : ℚ) ^ (E - 52) ≤ (((2 : ℤ) ^ 53 : ℤ) : ℚ) := by
    rw [div_le_iff₀ hu, e53]; exact hq2
  have hn := roundHalfEven_le hm
  have hn2 : (roundHalfEven (q / (2 : ℚ) ^ (E - 52)) : ℚ) ≤ (((2 : ℤ) ^ 53 : ℤ) : ℚ) := by
    exact_mod_cast hn
  calc _ ≤ (((2 : ℤ) ^ 53 : ℤ) : ℚ) * (2 : ℚ) ^ (E - 52) :=
        mul_le_mul_of_nonneg_right hn2 (le_of_lt hu)
    _ = _ := e53

theorem roundMag_mono {p q : ℚ} (hp : 0 ≤ p) (h : p ≤ q) : roundMag p ≤ roundMag q := by
  rcases eq_or_lt_of_le hp with h0 | hpos
  · rw [← h0, roundMag_zero]; exact roundMag_nonneg (le_trans hp h)
  have hqpos : 0 < q := lt_of_lt_of_le hpos h
  have hlog := ilog2_mono p q hpos h
  have hE : max (ilog2 p) (-1022) ≤ max (ilog2 q) (-1022) := max_le_max hlog le_rfl
  rcases eq_or_lt_of_le hE with heq | hlt
  · rw [roundMag_eq, roundMag_eq, heq]
    have hu : (0 : ℚ) < (2 : ℚ) ^ (max (ilog2 q) (-1022) - 52) := by positivity
    have hm : p / (2 : ℚ) ^ (max (ilog2 q) (-1022) - 52)
        ≤ q / (2 : ℚ) ^ (max (ilog2 q) (-1022) - 52) :=
      div_le_div_of_nonneg_right h (le_of_lt hu)
    have hn := roundHalfEven_mono hm
    have hn2 : (roundHalfEven (p / (2 : ℚ) ^ (max (ilog2 q) (-1022) - 52)) : ℚ)
        ≤ (roundHalfEven (q / (2 : ℚ) ^ (max (ilog2 q) (-1022) - 52)) : ℚ) := by
      exact_mod_cast hn
    exact mul_le_mul_of_nonneg_right hn2 (le_of_lt hu)
  · have h1022 : -1022 ≤ max (ilog2 p) (-1022) := le_max_right _ _
    have hq1 : max (ilog2 q) (-1022) = ilog2 q := by
      rcases max_choice (ilog2 q) (-1022) with h | h
      · exact h
      · omega
    obtain ⟨t1, -⟩ := ilog2_spec q hqpos
    calc roundMag p ≤ (2 : ℚ) ^ (max (ilog2 p) (-1022) + 1) := roundMag_le hp
      _ ≤ (2 : ℚ) ^ (ilog2 q) := (zpow_two_le_iff _ _).2 (by omega)
      _ ≤ roundMag q := le_roundMag (by omega) t1

theorem roundMag_eq_self_of {v : ℚ} (z : ℤ)
    (h : v = (z : ℚ) * (2 : ℚ) ^ (max (ilog2 v) (-1022) - 52)) : roundMag v = v := by
  have hu : (0 : ℚ) < (2 : ℚ) ^ (max (ilog2 v) (-1022) - 52) := by positivity
  rw [roundMag_eq]
  have hz : v / (2 : ℚ) ^ (max (ilog2 v) (-1022) - 52) = (z : ℚ) := by
    rw [div_eq_iff (ne_of_gt hu)]; exact h
  rw [hz, roundHalfEven_intCast]
  exact h.symm

/-- Rounding is idempotent: a rounded magnitude rounds to itself. -/
theorem roundMag_idem {q : ℚ} (hq : 0 ≤ q) : roundMag (roundMag q) = roundMag q := by
  have hv0 : 0 ≤ roundMag q := roundMag_nonneg hq
  rcases eq_or_lt_of_le hv0 with h0 | hvpos
  · rw [← h0, roundMag_zero]
  have hqpos : 0 < q := by
    rcases eq_or_lt_of_le hq with h | h
    · rw [← h, roundMag_zero] at hvpos; exact absurd hvpos (lt_irrefl _)
    · exact h
  set E := max (ilog2 q) (-1022) with hE
  have hE1022 : -1022 ≤ E := le_max_right _ _
  have hval : roundMag q = (roundHalfEven (q / (2 : ℚ) ^ (E - 52)) : ℚ) * (2 : ℚ) ^ (E - 52) :=
    roundMag_eq q
  have hle : roundMag q ≤ (2 : ℚ) ^ (E + 1) := roundMag_le hq
  rcases eq_or_lt_of_le hle with htop | hlt
  · -- the value is the next power of two
    have hlog : ilog2 (roundMag q) = E + 1 := by
      apply ilog2_unique
      · rw [htop]
      · rw [htop]; exact (zpow_two_lt_iff _ _).2 (by omega)
    apply roundMag_eq_self_of ((2 : ℤ) ^ 52)
    rw [hlog, max_eq_left (by omega), htop]
    push_cast
    have := mul_ulp52 (E + 1)
    rw [this]
  · -- the value stays below the next power of two
    have hexp : max (ilog2 (roundMag q)) (-1022) = E := by
      by_cases hge : (2 : ℚ) ^ E ≤ roundMag q
      · rw [ilog2_unique _ E hge hlt]; exact max_eq_left hE1022
      · have hlog : ilog2 (roundMag q) < E := by
          obtain ⟨s1, -⟩ := ilog2_spec _ hvpos
          exact (zpow_two_lt_iff _ _).1 (lt_of_le_of_lt s1 (not_le.1 hge))
        have hEeq : E = -1022 := by
          by_contra hne
          have hmax : E = ilog2 q := by
            rcases max_choice (ilog2 q) (-1022) with h | h
            · rw [hE, h]
            · rw [hE, h] at hne; exact absurd rfl hne
          obtain ⟨t1, -⟩ := ilog2_spec q hqpos
          exact hge (le_roundMag hE1022 (hmax ▸ t1))
        rw [hEeq]
        exact max_eq_right (by omega)
    apply roundMag_eq_self_of (roundHalfEven (q / (2 : ℚ) ^ (E - 52)))
    rw [hexp]; exact hval

/-- Rounding error in the normal range: at most `2 ^ (-53)` relative. -/
theorem roundMag_sub_le {q : ℚ} (hq : (2 : ℚ) ^ (-1022 : ℤ) ≤ q) :
    |roundMag q - q| ≤ q / 2 ^ 53 := by
  have hqpos : 0 < q := lt_of_lt_of_le (by positivity) hq
  obtain ⟨s1, s2⟩ := ilog2_spec q hqpos
  have hlog : -1022 ≤ ilog2 q := by
    have : (-1022 : ℤ) < ilog2 q + 1 := (zpow_two_lt_iff _ _).1 (lt_of_le_of_lt hq s2)
    omega
  rw [roundMag_eq, max_eq_left hlog]
  set E := ilog2 q
  set u := (2 : ℚ) ^ (E - 52) with hu
  have hupos : 0 < u := by positivity
  have herr := roundHalfEven_sub_le (q / u)
  have hfac : (roundHalfEven (q / u) : ℚ) * u - q = ((roundHalfEven (q / u) : ℚ) - q / u) * u := by
    field_simp
  rw [hfac, abs_mul, abs_of_pos hupos]
  have hu2 : u = (2 : ℚ) ^ E / 4503599627370496 := by
    rw [eq_div_iff (by norm_num), mul_comm]; exact mul_ulp52 E
  calc |(roundHalfEven (q / u) : ℚ) - q / u| * u ≤ 1 / 2 * u :=
        mul_le_mul_of_nonneg_right herr (le_of_lt hupos)
    _ = (2 : ℚ) ^ E / 2 ^ 53 := by rw [hu2]; norm_num; ring
    _ ≤ q / 2 ^ 53 := div_le_div_of_nonneg_right s1 (by positivity)

theorem round_of_nonneg {q : ℚ} (hq : 0 ≤ q) :
    round q = if pow2 1024 ≤ roundMag q then F64.inf false else F64.fin (roundMag q) := by
  unfold round
  simp only [abs_of_nonneg hq, not_lt.2 hq, decide_False, if_false]

theorem round_of_neg {q : ℚ} (hq : q < 0) :
    round q = if pow2 1024 ≤ roundMag (-q) then F64.inf true else F64.fin (-roundMag (-q)) := by
  unfold round
  simp only [abs_of_neg hq, hq, decide_True, if_true]

theorem round_zero : round 0 = F64.fin 0 := by
  rw [round_of_nonneg le_rfl, roundMag_zero, if_neg]
  exact not_le.2 (pow2_pos 1024)

/-- A non-negative value rounds to `+Infinity` or to a non-negative Number. -/
theorem round_nonneg {q : ℚ} (hq : 0 ≤ q) :
    round q = F64.inf false ∨ ∃ r : ℚ, 0 ≤ r ∧ round q = F64.fin r := by
  rw [round_of_nonneg hq]
  split_ifs
  · exact Or.inl rfl
  · exact Or.inr ⟨_, roundMag_nonneg hq, rfl⟩

/-- Rounding is monotone. -/
theorem round_mono {p q : ℚ} (h : p ≤ q) : F64.le (round p) (round q) = true := by
  by_cases hq : q < 0
  · have hp : p < 0 := lt_of_le_of_lt h hq
    have hm : roundMag (-q) ≤ roundMag (-p) := roundMag_mono (by linarith) (by linarith)
    rw [round_of_neg hp, round_of_neg hq]
    split_ifs with a b b
    · rfl
    · rfl
    · exact absurd (le_trans b hm) a
    · simp only [F64.le, decide_eq_true_eq]; linarith
  · have hq0 : 0 ≤ q := not_lt.1 hq
    by_cases hp : p < 0
    · rw [round_of_neg hp, round_of_nonneg hq0]
      have h1 := roundMag_nonneg (q := -p) (by linarith)
      have h2 := roundMag_nonneg hq0
      split_ifs
      · rfl
      · rfl
      · rfl
      · simp only [F64.le, decide_eq_true_eq]; linarith
    · have hp0 : 0 ≤ p := not_lt.1 hp
      have hm : roundMag p ≤ roundMag q := roundMag_mono hp0 h
      rw [round_of_nonneg hp0, round_of_nonneg hq0]
      split_ifs with a b b
      · rfl
      · exact absurd (le_trans a hm) b
      · rfl
      · simp only [F64.le, decide_eq_true_eq]; exact hm

/-- A finite result of rounding is a Number: it rounds to itself. -/
theorem round_idem {q r : ℚ} (h : round q = F64.fin r) : round r = F64.fin r := by
  by_cases hq : q < 0
  · rw [round_of_neg hq] at h
    split_ifs at h with a
    have hr : r = -roundMag (-q) := by cases h; rfl
    have hv0 : 0 ≤ roundMag (-q) := roundMag_nonneg (by linarith)
    rcases eq_or_lt_of_le hv0 with h0 | hpos
    · rw [hr, ← h0, neg_zero, round_zero]
    · have hrneg : r < 0 := by rw [hr]; linarith
      rw [round_of_neg hrneg, hr, neg_neg, roundMag_idem (by linarith), if_neg a]
  · have hq0 : 0 ≤ q := not_lt.1 hq
    rw [round_of_nonneg hq0] at h
    split_ifs at h with a
    have hr : r = roundMag q := by cases h; rfl
    have hv0 : 0 ≤ roundMag q := roundMag_nonneg hq0
    rw [hr, round_of_nonneg hv0, roundMag_idem hq0, if_neg a]

/-! ## Order and sign of the arithmetic operators -/

theorem round_ne_nan (q : ℚ) : round q ≠ F64.nan := by
  unfold round
  simp only
  split_ifs <;> simp

theorem ge_zero_iff (x : F64) :
    F64.ge x (.fin 0) = true ↔ x = F64.inf false ∨ ∃ r : ℚ, 0 ≤ r ∧ x = F64.fin r := by
  cases x with
  | nan => simp [F64.ge, F64.le]
  | inf s => cases s <;> simp [F64.ge, F64.le]
  | fin q => simp [F64.ge, F64.le]

theorem ge_zero_round {q : ℚ} (hq : 0 ≤ q) : F64.ge (round q) (.fin 0) = true :=
  (ge_zero_iff _).2 (round_nonneg hq)

theorem le_of_ne_nan_inf {x : F64} (h : x ≠ F64.nan) : F64.le x (.inf false) = true := by
  cases x with
  | nan => exact absurd rfl h
  | inf s => cases s <;> rfl
  | fin q => rfl

theorem neg_inf_le {x : F64} (h : x ≠ F64.nan) : F64.le (.inf true) x = true := by
  cases x with
  | nan => exact absurd rfl h
  | inf s => cases s <;> rfl
  | fin q => rfl

theorem add_ge_zero {x y : F64} (hx : F64.ge x (.fin 0) = true) (hy : F64.ge y (.fin 0) = true) :
    F64.ge (F64.add x y) (.fin 0) = true := by
  rcases (ge_zero_iff x).1 hx with rfl | ⟨p, hp, rfl⟩ <;>
    rcases (ge_zero_iff y).1 hy with rfl | ⟨q, hq, rfl⟩
  · rfl
  · rfl
  · rfl
  · exact ge_zero_round (add_nonneg hp hq)

theorem add_notNegative {x y : F64} (hx : NotNegative x) (hy : NotNegative y) :
    NotNegative (F64.add x y) := by
  rcases hx with rfl | hx
  · left; cases y <;> rfl
  rcases hy with rfl | hy
  · left; cases x <;> rfl
  · right; exact add_ge_zero hx hy

theorem mul_notNegative {x y : F64} (hx : NotNegative x) (hy : NotNegative y) :
    NotNegative (F64.mul x y) := by
  rcases hx with rfl | hx
  · left; cases y <;> rfl
  rcases hy with rfl | hy
  · left; cases x <;> rfl
  rcases (ge_zero_iff x).1 hx with rfl | ⟨p, hp, rfl⟩ <;>
    rcases (ge_zero_iff y).1 hy with rfl | ⟨q, hq, rfl⟩
  · right; rfl
  · by_cases h0 : q = 0
    · left; simp [F64.mul, h0]
    · right
      have : ¬ q < 0 := not_lt.2 hq
      simp [F64.mul, h0, this, F64.ge, F64.le]
  · by_cases h0 : p = 0
    · left; simp [F64.mul, h0]
    · right
      have : ¬ p < 0 := not_lt.2 hp
      simp [F64.mul, h0, this, F64.ge, F64.le]
  · right; exact ge_zero_round (mul_nonneg hp hq)

theorem div_ten_ge_zero {x : F64} (hx : F64.ge x (.fin 0) = true) :
    F64.ge (F64.div x (.fin 10)) (.fin 0) = true := by
  rcases (ge_zero_iff x).1 hx with rfl | ⟨p, hp, rfl⟩
  · rfl
  · have : F64.div (.fin p) (.fin 10) = round (p / 10) := by
      simp [F64.div]
    rw [this]; exact ge_zero_round (by positivity)

theorem DT_BONUS_PER_POINT_eq :
    DT_BONUS_PER_POINT = F64.fin (3602879701896397 / 72057594037927936) := by
  decide!

theorem dtBonus_notNegative {dt : F64} (h : NotNegative dt) : NotNegative (dtBonus dt) := by
  unfold dtBonus
  apply add_notNegative
  · right; rfl
  · apply mul_notNegative h
    right; rw [DT_BONUS_PER_POINT_eq]; simp [F64.ge, F64.le]; norm_num

theorem mul_const_mono {c : ℚ} (hc : 0 < c) {x y : F64} (h : F64.le x y = true) :
    F64.le (F64.mul x (.fin c)) (F64.mul y (.fin c)) = true := by
  have hc0 : c ≠ 0 := ne_of_gt hc
  have hcn : ¬ c < 0 := not_lt.2 (le_of_lt hc)
  cases x with
  | nan => simp [F64.le] at h
  | inf s =>
    cases y with
    | nan => cases s <;> simp [F64.le] at h
    | inf t =>
      cases s <;> cases t <;> simp [F64.le] at h <;> simp [F64.mul, hc0, hcn, F64.le]
    | fin q =>
      cases s
      · simp [F64.le] at h
      · have : F64.mul (.inf true) (.fin c) = .inf true := by simp [F64.mul, hc0, hcn]
        rw [this]
        apply neg_inf_le
        show round (q * c) ≠ F64.nan
        exact round_ne_nan _
  | fin p =>
    cases y with
    | nan => simp [F64.le] at h
    | inf t =>
      cases t
      · have : F64.mul (.inf false) (.fin c) = .inf false := by simp [F64.mul, hc0, hcn]
        rw [this]
        apply le_of_ne_nan_inf
        show round (p * c) ≠ F64.nan
        exact round_ne_nan _
      · simp [F64.le] at h
    | fin q =>
      have hpq : p ≤ q := by simpa [F64.le] using h
      show F64.le (round (p * c)) (round (q * c)) = true
      exact round_mono (mul_le_mul_of_nonneg_right hpq (le_of_lt hc))

theorem add_const_mono (c : ℚ) {x y : F64} (h : F64.le x y = true) :
    F64.le (F64.add (.fin c) x) (F64.add (.fin c) y) = true := by
  cases x with
  | nan => simp [F64.le] at h
  | inf s =>
    cases y with
    | nan => cases s <;> simp [F64.le] at h
    | inf t => cases s <;> cases t <;> simp [F64.le] at h <;> rfl
    | fin q =>
      cases s
      · simp [F64.le] at h
      · show F64.le (.inf true) (round (c + q)) = true
        exact neg_inf_le (round_ne_nan _)
  | fin p =>
    cases y with
    | nan => simp [F64.le] at h
    | inf t =>
      cases t
      · show F64.le (round (c + p)) (.inf false) = true
        exact le_of_ne_nan_inf (round_ne_nan _)
      · simp [F64.le] at h
    | fin q =>
      have hpq : p ≤ q := by simpa [F64.le] using h
      show F64.le (round (c + p)) (round (c + q)) = true
      exact round_mono (by linarith)

theorem dtBonus_mono {d1 d2 : F64} (h : F64.le d1 d2 = true) :
    F64.le (dtBonus d1) (dtBonus d2) = true := by
  unfold dtBonus
  rw [DT_BONUS_PER_POINT_eq]
  exact add_const_mono 1 (mul_const_mono (by norm_num) h)

/-! ## Gold gain on doubles -/

/-- C8 (amended): one click gives `gold + 1 * m(dt)` and one tick gives
`gold + (gps / 10) * m(dt)` with `m(dt) = 1 + dt * 0.05`, every operation
rounded to the nearest Number; `gps`, `dt` and the array stay as they were; `m`
never decreases when `dt` grows.  A fresh game has `gold = 1` after one click,
and with `gps = 100`, `dt = 0` one tick adds `10`. -/
theorem gold_gain (s : State) :
    (handleSoulClick s).gold
      = F64.add s.gold (F64.mul (.fin 1) (F64.add (.fin 1) (F64.mul s.dt (round (1 / 20))))) ∧
    (gameLoop s).gold
      = F64.add s.gold (F64.mul (F64.div s.gps (.fin 10))
          (F64.add (.fin 1) (F64.mul s.dt (round (1 / 20))))) ∧
    (handleSoulClick s).gps = s.gps ∧ (handleSoulClick s).dt = s.dt ∧
    (handleSoulClick s).upgrades = s.upgrades ∧
    (gameLoop s).gps = s.gps ∧ (gameLoop s).dt = s.dt ∧ (gameLoop s).upgrades = s.upgrades ∧
    (∀ d1 d2 : F64, F64.le d1 d2 = true → F64.le (dtBonus d1) (dtBonus d2) = true) ∧
    (handleSoulClick (initialState (.fin 0))).gold = .fin 1 ∧
    (gameLoop { initialState (.fin 0) with gps := .fin 100 }).gold = .fin 10 := by
  refine ⟨rfl, rfl, rfl, rfl, rfl, rfl, rfl, rfl, fun d1 d2 h => dtBonus_mono h, ?_, ?_⟩
  · decide!
  · decide!

/-- The multiplier at `dt = 0` is not above the one at `dt = 1`. -/
theorem gold_gain_witness :
    F64.le (.fin 0) (.fin 1) = true ∧ F64.le (dtBonus (.fin 0)) (dtBonus (.fin 1)) = true :=
  ⟨by decide!, (gold_gain (initialState (.fin 0))).2.2.2.2.2.2.2.2.1 (.fin 0) (.fin 1) (by decide!)⟩

/-- C8 (counterexample): the multiplier is the same Number, `675539944105575.5`,
at `dt = 13510798882111488` and at the next Number `dt = 13510798882111490`; and
with `gps = 1`, `dt = 0` one tick adds the Number nearest to `0.1`, not `1/10`. -/
theorem gold_gain_counterexample :
    F64.lt (.fin 13510798882111488) (.fin 13510798882111490) = true ∧
    dtBonus (.fin 13510798882111488) = .fin (1351079888211151 / 2) ∧
    dtBonus (.fin 13510798882111490) = .fin (1351079888211151 / 2) ∧
    F64.lt (dtBonus (.fin 13510798882111488)) (dtBonus (.fin 13510798882111490)) = false ∧
    (gameLoop { initialState (.fin 0) with gps := .fin 1 }).gold
      = .fin (3602879701896397 / 36028797018963968) ∧
    (3602879701896397 / 36028797018963968 : ℚ) ≠ 0 + (1 / 10) * (1 + 0 * (1 / 20)) := by
  refine ⟨by decide!, by decide!, by decide!, by decide!, by decide!, by norm_num⟩

/-! ## Reset on doubles -/

/-- C4 (amended): `handleReset` changes nothing and calls `setItem` not at all
when `gold < 1,000,000` or when the confirmation is answered no; it changes
something only when the answer is yes and `gold >= 1,000,000` or `gold` is
`NaN`. -/
theorem handleReset_all_or_nothing (E : Engine) (confirmation : Bool) (s : State) :
    ((F64.lt s.gold RESET_THRESHOLD = true ∨ confirmation = false) →
      handleReset E confirmation s = (s, none)) ∧
    (handleReset E confirmation s ≠ (s, none) →
      (F64.ge s.gold RESET_THRESHOLD = true ∨ s.gold = .nan) ∧ confirmation = true) := by
  have hfirst : (F64.lt s.gold RESET_THRESHOLD = true ∨ confirmation = false) →
      handleReset E confirmation s = (s, none) := by
    rintro (hlt | hno)
    · have h0 : calculateDtOnReset E s = .fin 0 := by
        unfold calculateDtOnReset
        rw [if_pos hlt]
      have hle : F64.le (.fin 0) (.fin 0) = true := by simp [F64.le]
      simp only [handleReset, h0, hle, if_true]
    · subst hno
      by_cases h0 : F64.le (calculateDtOnReset E s) (.fin 0) = true
      · simp [handleReset, h0]
      · simp [handleReset, h0]
  refine ⟨hfirst, fun hne => ?_⟩
  have hc : confirmation = true := by
    cases confirmation with
    | true => rfl
    | false => exact absurd (hfirst (Or.inr rfl)) hne
  have hlt : ¬ F64.lt s.gold RESET_THRESHOLD = true := fun h => hne (hfirst (Or.inl h))
  refine ⟨?_, hc⟩
  cases hg : s.gold with
  | nan => right; rfl
  | inf t =>
    cases t
    · left; rfl
    · rw [hg] at hlt; exact absurd rfl hlt
  | fin q =>
    left
    rw [hg] at hlt
    simp only [F64.lt, RESET_THRESHOLD, decide_eq_true_eq, not_lt] at hlt
    simp only [F64.ge, F64.le, RESET_THRESHOLD, decide_eq_true_eq]
    exact hlt

/-- A reset at `gold = 999,999` answered yes, and one at `gold = 5,000,000`
answered no, change nothing. -/
theorem handleReset_all_or_nothing_witness :
    handleReset refEngine true (State.mk (.fin 999999) (.fin 12) (.fin 3) upgrades)
      = (State.mk (.fin 999999) (.fin 12) (.fin 3) upgrades, none) ∧
    handleReset refEngine false (State.mk (.fin 5000000) (.fin 12) (.fin 3) upgrades)
      = (State.mk (.fin 5000000) (.fin 12) (.fin 3) upgrades, none) :=
  ⟨(handleReset_all_or_nothing refEngine true
      (State.mk (.fin 999999) (.fin 12) (.fin 3) upgrades)).1 (Or.inl (by decide!)),
   (handleReset_all_or_nothing refEngine false
      (State.mk (.fin 5000000) (.fin 12) (.fin 3) upgrades)).1 (Or.inr rfl)⟩

/-- C4 (counterexample): with `"abc"` stored `init` leaves `dt = NaN`, and the
first tick makes `gold = NaN`.  In that state `gold >= 1,000,000` is false, yet
a reset answered yes sets `gold` to `0` and hands `NaN` to `setItem`. -/
theorem handleReset_all_or_nothing_counterexample :
    run refEngine [.tick] (initialState .nan) = State.mk .nan (.fin 0) .nan upgrades ∧
    F64.ge (State.mk .nan (.fin 0) .nan upgrades).gold RESET_THRESHOLD = false ∧
    handleReset refEngine true (State.mk .nan (.fin 0) .nan upgrades)
      = (State.mk (.fin 0) (.fin 0) .nan upgrades, some .nan) ∧
    handleReset refEngine true (State.mk .nan (.fin 0) .nan upgrades)
      ≠ (State.mk .nan (.fin 0) .nan upgrades, none) := by
  refine ⟨by decide!, by decide!, by decide!, by decide!⟩

/-! ## Reachable states on doubles -/

theorem incrementCount_keeps_fixed (upgradeId : String) (us : List Upgrade) :
    (incrementCount upgradeId us).map Upgrade.fixed = us.map Upgrade.fixed := by
  induction us with
  | nil => rfl
  | cons v vs ih =>
    by_cases h : v.id = upgradeId
    · simp [incrementCount, h, Upgrade.fixed]
    · simp [incrementCount, h, ih]

theorem reset_keeps_fixed (us : List Upgrade) :
    (us.map (fun u => { u with count := F64.fin 0 })).map Upgrade.fixed
      = us.map Upgrade.fixed := by
  simp [List.map_map, Function.comp_def, Upgrade.fixed]

theorem purchase_ok_cases {E : Engine} {upgradeId : String} {s s2 : State}
    (h : purchaseUpgrade E upgradeId s = .ok s2) :
    s2 = s ∨ ∃ u : Upgrade, ∃ c : F64, s.upgrades.find? (fun v => v.id = upgradeId) = some u ∧
      F64.ge s.gold c = true ∧
      s2 = { s with gold := F64.sub s.gold c, gps := F64.add s.gps u.gps,
                    upgrades := incrementCount upgradeId s.upgrades } := by
  unfold purchaseUpgrade at h
  cases hf : s.upgrades.find? (fun v => v.id = upgradeId) with
  | none => simp [hf, calculateCost] at h
  | some u =>
    simp only [hf, calculateCost] at h
    split_ifs at h with hg
    · right
      refine ⟨u, _, rfl, hg, ?_⟩
      cases h; rfl
    · left; cases h; rfl

theorem catalog_gps_ge_zero {us : List Upgrade} (h : IsCatalog us) {u : Upgrade} (hu : u ∈ us) :
    F64.ge u.gps (.fin 0) = true := by
  have hm : u.fixed ∈ upgrades.map Upgrade.fixed := h ▸ List.mem_map_of_mem Upgrade.fixed hu
  simp only [upgrades, Upgrade.fixed, List.map_cons, List.map_nil, List.mem_cons,
    List.mem_singleton, List.not_mem_nil, or_false, Prod.mk.injEq] at hm
  rcases hm with h | h | h | h | h | h <;>
    (rw [h.2.2.2]; simp [F64.ge, F64.le])

theorem isDouble_round (q : ℚ) : IsDouble (round q) := by
  cases h : round q with
  | nan => trivial
  | inf s => trivial
  | fin r => exact round_idem h

theorem le_self_of_notNegative {x : F64} (h : NotNegative x) :
    F64.le x x = true ∨ x = F64.nan := by
  rcases h with rfl | h
  · right; rfl
  · left
    rcases (ge_zero_iff x).1 h with rfl | ⟨r, -, rfl⟩
    · rfl
    · simp [F64.le]

/-- Adding a gain that is not `<= 0` to `dt`: the new `dt` is `NaN` or not below
the old one. -/
theorem add_gain {dt k : F64} (hn : NotNegative dt) (hd : IsDouble dt)
    (hk : ¬ F64.le k (.fin 0) = true) :
    NotNegative (F64.add dt k) ∧ IsDouble (F64.add dt k) ∧
      (F64.le dt (F64.add dt k) = true ∨ F64.add dt k = F64.nan) := by
  rcases hn with rfl | hn
  · refine ⟨Or.inl ?_, ?_, Or.inr ?_⟩ <;> cases k <;> first | rfl | trivial
  cases k with
  | nan =>
    have e : F64.add dt .nan = .nan := by cases dt <;> rfl
    rw [e]; exact ⟨Or.inl rfl, trivial, Or.inr rfl⟩
  | inf t =>
    cases t
    · rcases (ge_zero_iff dt).1 hn with rfl | ⟨d, -, rfl⟩
      · exact ⟨Or.inr rfl, trivial, Or.inl rfl⟩
      · exact ⟨Or.inr rfl, trivial, Or.inl rfl⟩
    · exact absurd rfl hk
  | fin r =>
    have hr : 0 < r := by
      simp only [F64.le, decide_eq_true_eq, not_le] at hk; exact hk
    rcases (ge_zero_iff dt).1 hn with rfl | ⟨d, hd0, rfl⟩
    · exact ⟨Or.inr rfl, trivial, Or.inl rfl⟩
    · have e : F64.add (.fin d) (.fin r) = round (d + r) := rfl
      rw [e]
      refine ⟨Or.inr (ge_zero_round (by linarith)), isDouble_round _, Or.inl ?_⟩
      have hdd : round d = F64.fin d := hd
      rw [← hdd]
      exact round_mono (by linarith)

theorem sub_notNegative {g c : F64} (hg : NotNegative g) (h : F64.ge g c = true) :
    NotNegative (F64.sub g c) := by
  rcases hg with rfl | hg
  · cases c <;> simp [F64.ge, F64.le] at h
  rcases (ge_zero_iff g).1 hg with rfl | ⟨p, hp, rfl⟩
  · cases c with
    | nan => simp [F64.ge, F64.le] at h
    | inf t => cases t <;> simp [NotNegative, F64.sub, F64.neg, F64.add, F64.ge, F64.le]
    | fin q => right; rfl
  · cases c with
    | nan => simp [F64.ge, F64.le] at h
    | inf t =>
      cases t
      · simp [F64.ge, F64.le] at h
      · right; rfl
    | fin q =>
      have hq : q ≤ p := by simpa [F64.ge, F64.le] using h
      right
      show F64.ge (round (p + -q)) (.fin 0) = true
      exact ge_zero_round (by linarith)

theorem step_keeps_inv (E : Engine) (a : Action) (s : State) (h : Inv s) :
    Inv (step E a s) ∧
      (F64.le s.dt (step E a s).dt = true ∨ (step E a s).dt = F64.nan) := by
  obtain ⟨hc, hg, hp, hd, hdd⟩ := h
  have hone : NotNegative (F64.fin 1) := Or.inr (by simp [F64.ge, F64.le])
  cases a with
  | click =>
    refine ⟨⟨hc, ?_, hp, hd, hdd⟩, le_self_of_notNegative hd⟩
    exact add_notNegative hg (mul_notNegative hone (dtBonus_notNegative hd))
  | tick =>
    refine ⟨⟨hc, ?_, hp, hd, hdd⟩, le_self_of_notNegative hd⟩
    exact add_notNegative hg
      (mul_notNegative (Or.inr (div_ten_ge_zero hp)) (dtBonus_notNegative hd))
  | purchase upgradeId =>
    simp only [step]
    cases hpu : purchaseUpgrade E upgradeId s with
    | error e => exact ⟨⟨hc, hg, hp, hd, hdd⟩, le_self_of_notNegative hd⟩
    | ok s2 =>
      rcases purchase_ok_cases hpu with rfl | ⟨u, c, hf, hge, rfl⟩
      · exact ⟨⟨hc, hg, hp, hd, hdd⟩, le_self_of_notNegative hd⟩
      · refine ⟨⟨?_, sub_notNegative hg hge, ?_, hd, hdd⟩, le_self_of_notNegative hd⟩
        · show (incrementCount upgradeId s.upgrades).map Upgrade.fixed = _
          rw [incrementCount_keeps_fixed]; exact hc
        · exact add_ge_zero hp (catalog_gps_ge_zero hc (List.mem_of_find?_eq_some hf))
  | reset confirmation =>
    simp only [step, handleReset]
    by_cases hk : F64.le (calculateDtOnReset E s) (.fin 0) = true
    · rw [if_pos hk]
      exact ⟨⟨hc, hg, hp, hd, hdd⟩, le_self_of_notNegative hd⟩
    · rw [if_neg hk]
      cases confirmation with
      | false => exact ⟨⟨hc, hg, hp, hd, hdd⟩, le_self_of_notNegative hd⟩
      | true =>
        obtain ⟨h1, h2, h3⟩ := add_gain hd hdd hk
        refine ⟨⟨?_, ?_, ?_, h1, h2⟩, h3⟩
        · show (s.upgrades.map (fun u => { u with count := F64.fin 0 })).map Upgrade.fixed = _
          rw [reset_keeps_fixed]; exact hc
        · exact Or.inr (by simp [F64.ge, F64.le])
        · simp [F64.ge, F64.le]

theorem run_keeps_inv (E : Engine) (as : List Action) (s : State) (h : Inv s) :
    Inv (run E as s) := by
  induction as generalizing s with
  | nil => exact h
  | cons a as ih => exact ih (step E a s) (step_keeps_inv E a s h).1

/-- C6 (amended): from `gold = 0`, `gps = 0`, nothing owned and `dt` the Number of
a natural number, after any finite sequence of clicks, purchases, ticks and
resets, with any engine: `gold` is `NaN` or `>= 0`, `gps >= 0`, `dt` is `NaN` or
`>= 0`, and one more event leaves `dt` not below its old value or makes it
`NaN`. -/
theorem reachable_nonneg (E : Engine) (d0 : ℕ) (as : List Action) :
    NotNegative (run E as (initialState (round d0))).gold ∧
    F64.ge (run E as (initialState (round d0))).gps (.fin 0) = true ∧
    NotNegative (run E as (initialState (round d0))).dt ∧
    ∀ a : Action,
      F64.le (run E as (initialState (round d0))).dt
          (step E a (run E as (initialState (round d0)))).dt = true ∨
        (step E a (run E as (initialState (round d0)))).dt = F64.nan := by
  have h0 : Inv (initialState (round d0)) := by
    refine ⟨rfl, Or.inr ?_, ?_, Or.inr (ge_zero_round (Nat.cast_nonneg d0)), isDouble_round _⟩
    · simp [initialState, F64.ge, F64.le]
    · simp [initialState, F64.ge, F64.le]
  have hi := run_keeps_inv E as _ h0
  exact ⟨hi.2.1, hi.2.2.1, hi.2.2.2.1, fun a => (step_keeps_inv E a _ hi).2⟩

/-- C6 (counterexample): from `dt = 1e308` the events click, purchase of Sans,
tick, reset answered yes, tick end with `gold = NaN`, for which `gold >= 0` is
false: the first tick makes `gold` infinite, the reset makes `dt` infinite, and
the last tick adds `0 * Infinity`. -/
theorem reachable_nonneg_counterexample :
    round ((10 ^ 308 : ℕ) : ℚ) = F64.fin (100000000000000001097906362944045541740492309677311846336810682903157585404911491537163328978494688899061249669721172515611590283743140088328307009198146046031271664502933027185697489699588559043338384466165001178426897626212945177628091195786707458122783970171784415105291802893207873272974885715430223118336 : ℕ) ∧
    (run refEngine [.click, .purchase "sans", .tick] (initialState (round ((10 ^ 308 : ℕ) : ℚ)))).gold
      = F64.inf false ∧
    (run refEngine [.click, .purchase "sans", .tick, .reset true, .tick]
      (initialState (round ((10 ^ 308 : ℕ) : ℚ)))).gold = F64.nan ∧
    F64.ge F64.nan (.fin 0) = false := by
  refine ⟨by decide!, by decide!, by decide!, by decide!⟩

/-! ## Prestige reset on doubles -/

theorem one_le_round {q : ℚ} (hq : 1 ≤ q) :
    round q = F64.inf false ∨ ∃ r : ℚ, 1 ≤ r ∧ round q = F64.fin r := by
  rw [round_of_nonneg (by linarith)]
  split_ifs
  · exact Or.inl rfl
  · refine Or.inr ⟨_, ?_, rfl⟩
    have := le_roundMag (q := q) (e := 0) (by norm_num) (by simpa using hq)
    simpa using this

theorem one_le_cbrtMag {q : ℚ} (hq : 1 ≤ q) : 1 ≤ cbrtMag q := by
  have hqpos : 0 < q := by linarith
  obtain ⟨s1, -⟩ := ilog2_spec q hqpos
  have hlog : 0 ≤ ilog2 q := by
    have h1 : (2 : ℚ) ^ (0 : ℤ) ≤ q := by simpa using hq
    obtain ⟨-, s2⟩ := ilog2_spec q hqpos
    have : (0 : ℤ) < ilog2 q + 1 := (zpow_two_lt_iff _ _).1 (lt_of_le_of_lt h1 s2)
    omega
  set er := ilog2 q / 3 with her
  have her0 : 0 ≤ er := Int.ediv_nonneg hlog (by norm_num)
  have her3 : 3 * er ≤ ilog2 q := Int.mul_ediv_self_le (by norm_num)
  have hu : pow2 (er - 52) = (2 : ℚ) ^ (er - 52) := pow2_eq _
  have hupos : (0 : ℚ) < (2 : ℚ) ^ (er - 52) := by positivity
  have hu3 : ((2 : ℚ) ^ (er - 52)) ^ 3 = (2 : ℚ) ^ (3 * er - 156) := by
    rw [← zpow_natCast, ← zpow_mul]; congr 1; push_cast; ring
  have hbig : ((2 ^ 156 : ℕ) : ℚ) ≤ q / ((2 : ℚ) ^ (er - 52)) ^ 3 := by
    rw [le_div_iff₀ (by positivity), hu3]
    have e : ((2 ^ 156 : ℕ) : ℚ) * (2 : ℚ) ^ (3 * er - 156) = (2 : ℚ) ^ (3 * er) := by
      have h : (2 : ℚ) ^ (3 * er) = (2 : ℚ) ^ (156 : ℤ) * (2 : ℚ) ^ (3 * er - 156) := by
        rw [← zpow_add₀ (by norm_num)]; congr 1; ring
      rw [h]; norm_num
    rw [e]
    exact le_trans ((zpow_two_le_iff _ _).2 her3) s1
  have hfloor : (2 ^ 156 : ℕ) ≤ ⌊q / ((2 : ℚ) ^ (er - 52)) ^ 3⌋.toNat := by
    have h1 : ((2 ^ 156 : ℕ) : ℤ) ≤ ⌊q / ((2 : ℚ) ^ (er - 52)) ^ 3⌋ := by
      rw [Int.le_floor]; exact_mod_cast hbig
    omega
  have hn : 2 ^ 52 ≤ icbrt ⌊q / ((2 : ℚ) ^ (er - 52)) ^ 3⌋.toNat := by
    rw [le_icbrt_iff]
    calc (2 ^ 52) ^ 3 = 2 ^ 156 := by norm_num
      _ ≤ _ := hfloor
  have hnq : (4503599627370496 : ℚ) ≤ (icbrt ⌊q / ((2 : ℚ) ^ (er - 52)) ^ 3⌋.toNat : ℚ) := by
    exact_mod_cast hn
  have hbase : (1 : ℚ) ≤ (icbrt ⌊q / ((2 : ℚ) ^ (er - 52)) ^ 3⌋.toNat : ℚ)
      * (2 : ℚ) ^ (er - 52) := by
    calc (1 : ℚ) ≤ (2 : ℚ) ^ er := by
          have := (zpow_two_le_iff 0 er).2 her0
          simpa using this
      _ = 4503599627370496 * (2 : ℚ) ^ (er - 52) := (mul_ulp52 er).symm
      _ ≤ _ := mul_le_mul_of_nonneg_right hnq (le_of_lt hupos)
  unfold cbrtMag
  simp only [← her, hu]
  split_ifs
  · push_cast
    have : (icbrt ⌊q / ((2 : ℚ) ^ (er - 52)) ^ 3⌋.toNat : ℚ) * (2 : ℚ) ^ (er - 52)
        ≤ ((icbrt ⌊q / ((2 : ℚ) ^ (er - 52)) ^ 3⌋.toNat : ℚ) + 1) * (2 : ℚ) ^ (er - 52) := by
      apply mul_le_mul_of_nonneg_right (by linarith) (le_of_lt hupos)
    linarith
  · exact hbase

/-- The reference engine's cube root of a value at least `1` is at least `1`. -/
theorem refEngine_cbrt_ge_one (q : ℚ) (hq : 1 ≤ q) :
    F64.ge (refEngine.cbrt q) (.fin 1) = true := by
  have hpos : 0 < q := by linarith
  simp only [refEngine, if_pos hpos, F64.ge, F64.le, decide_eq_true_eq]
  exact one_le_cbrtMag hq

/-- C3 (amended): with `gold >= 1,000,000` and the confirmation answered yes, for
every engine whose cube root of a value at least `1` is at least `1`:
`handleReset` sets `dt` to the rounded sum `dt + k`, `gold` and `gps` to `0` and
every owned count to `0`, and hands the new `dt` to `setItem`, where
`k = calculateDtOnReset() = Math.floor(Math.cbrt(gold / 1000000))` is a natural
number at least `1` or `+Infinity`. -/
theorem handleReset_confirmed (E : Engine)
    (hE : ∀ q : ℚ, 1 ≤ q → F64.ge (E.cbrt q) (.fin 1) = true)
    (s : State) (h : F64.ge s.gold RESET_THRESHOLD = true) :
    ∃ k : F64, calculateDtOnReset E s = k ∧
      k = Math.floor (Math.cbrt E (F64.div s.gold RESET_THRESHOLD)) ∧
      (k = F64.inf false ∨ ∃ n : ℕ, 1 ≤ n ∧ k = F64.fin (n : ℚ)) ∧
      handleReset E true s =
        ({ gold := .fin 0, gps := .fin 0, dt := F64.add s.dt k,
           upgrades := s.upgrades.map (fun u => { u with count := F64.fin 0 }) },
         some (F64.add s.dt k)) ∧
      (∀ u ∈ (handleReset E true s).1.upgrades, u.count = F64.fin 0) := by
  have hnlt : ¬ F64.lt s.gold RESET_THRESHOLD = true := by
    cases hg : s.gold with
    | nan => simp [F64.lt]
    | inf t => cases t <;> simp [F64.lt, RESET_THRESHOLD]; rw [hg] at h; simp [F64.ge, F64.le, RESET_THRESHOLD] at h
    | fin g =>
      rw [hg] at h
      simp only [F64.ge, F64.le, RESET_THRESHOLD, decide_eq_true_eq] at h
      simp only [F64.lt, RESET_THRESHOLD, decide_eq_true_eq, not_lt]
      exact h
  have hk : calculateDtOnReset E s
      = Math.floor (Math.cbrt E (F64.div s.gold RESET_THRESHOLD)) := by
    unfold calculateDtOnReset; rw [if_neg hnlt]
  have hx : F64.div s.gold RESET_THRESHOLD = F64.inf false ∨
      ∃ r : ℚ, 1 ≤ r ∧ F64.div s.gold RESET_THRESHOLD = F64.fin r := by
    cases hg : s.gold with
    | nan => rw [hg] at h; simp [F64.ge, F64.le, RESET_THRESHOLD] at h
    | inf t =>
      cases t
      · left; simp [F64.div, RESET_THRESHOLD]
      · rw [hg] at h; simp [F64.ge, F64.le, RESET_THRESHOLD] at h
    | fin g =>
      rw [hg] at h
      simp only [F64.ge, F64.le, RESET_THRESHOLD, decide_eq_true_eq] at h
      have e : F64.div (.fin g) RESET_THRESHOLD = round (g / 1000000) := by
        simp [F64.div, RESET_THRESHOLD]
      rw [e]
      exact one_le_round (by rw [le_div_iff₀ (by norm_num)]; linarith)
  have hkval : Math.floor (Math.cbrt E (F64.div s.gold RESET_THRESHOLD)) = F64.inf false ∨
      ∃ n : ℕ, 1 ≤ n ∧
        Math.floor (Math.cbrt E (F64.div s.gold RESET_THRESHOLD)) = F64.fin (n : ℚ) := by
    rcases hx with hx | ⟨r, hr, hx⟩
    · left; rw [hx]; rfl
    · rw [hx]
      have hr0 : r ≠ 0 := by linarith
      have hc : Math.cbrt E (.fin r) = E.cbrt r := by simp [Math.cbrt, hr0]
      rw [hc]
      have hge := hE r hr
      cases hv : E.cbrt r with
      | nan => rw [hv] at hge; simp [F64.ge, F64.le] at hge
      | inf t =>
        cases t
        · left; rfl
        · rw [hv] at hge; simp [F64.ge, F64.le] at hge
      | fin c =>
        rw [hv] at hge
        simp only [F64.ge, F64.le, decide_eq_true_eq] at hge
        right
        have hfl : (1 : ℤ) ≤ ⌊c⌋ := Int.le_floor.2 (by simpa using hge)
        refine ⟨⌊c⌋.toNat, by omega, ?_⟩
        simp only [Math.floor]
        congr 1
        have : ((⌊c⌋.toNat : ℕ) : ℤ) = ⌊c⌋ := Int.toNat_of_nonneg (by omega)
        exact_mod_cast this.symm
  have hpos : ¬ F64.le (Math.floor (Math.cbrt E (F64.div s.gold RESET_THRESHOLD))) (.fin 0)
      = true := by
    rcases hkval with e | ⟨n, hn, e⟩
    · rw [e]; simp [F64.le]
    · rw [e]
      simp only [F64.le, decide_eq_true_eq, not_le]
      exact_mod_cast hn
  have heq : handleReset E true s =
      ({ gold := .fin 0, gps := .fin 0,
         dt := F64.add s.dt (Math.floor (Math.cbrt E (F64.div s.gold RESET_THRESHOLD))),
         upgrades := s.upgrades.map (fun u => { u with count := F64.fin 0 }) },
       some (F64.add s.dt (Math.floor (Math.cbrt E (F64.div s.gold RESET_THRESHOLD))))) := by
    simp only [handleReset, hk, if_neg hpos, if_true]
  refine ⟨_, hk, rfl, hkval, heq, ?_⟩
  rw [heq]
  intro u hu
  obtain ⟨v, -, rfl⟩ := List.mem_map.1 hu
  rfl

/-- Scenarios 4 and 5 of the specification on the reference engine:
`gold = 1,000,000` with `dt = 0` resets to `dt = 1`, and `gold = 8,000,000`
gains `2`. -/
theorem handleReset_confirmed_witness :
    F64.ge (State.mk (.fin 1000000) (.fin 7) (.fin 0) upgrades).gold RESET_THRESHOLD = true ∧
    (handleReset refEngine true (State.mk (.fin 1000000) (.fin 7) (.fin 0) upgrades)).1
      = State.mk (.fin 0) (.fin 0) (.fin 1) upgrades ∧
    calculateDtOnReset refEngine (State.mk (.fin 8000000) (.fin 0) (.fin 0) upgrades)
      = .fin 2 := by
  obtain ⟨k, hk, -, -, heq, -⟩ := handleReset_confirmed refEngine refEngine_cbrt_ge_one
    (State.mk (.fin 1000000) (.fin 7) (.fin 0) upgrades) (by decide!)
  have h1 : calculateDtOnReset refEngine
      (State.mk (.fin 1000000) (.fin 7) (.fin 0) upgrades) = .fin 1 := by decide!
  rw [h1] at hk
  subst hk
  refine ⟨by decide!, ?_, by decide!⟩
  rw [heq]
  decide!

/-- C3 (counterexample): at `gold = 8000000 - 2 ^ (-30)`, the Number just below
eight million, the reference engine gains `k = 2` although
`2 ^ 3 * 1000000 > gold`; and at `dt = 2 ^ 53`, `gold = 1000000` the gain is `1`
and `dt` stays `2 ^ 53`. -/
theorem handleReset_confirmed_counterexample :
    round (8000000 - 1 / 2 ^ 30) = F64.fin (8000000 - 1 / 2 ^ 30) ∧
    calculateDtOnReset refEngine
      (State.mk (.fin (8000000 - 1 / 2 ^ 30)) (.fin 0) (.fin 0) upgrades) = .fin 2 ∧
    ¬ ((2 : ℚ) ^ 3 * 1000000 ≤ 8000000 - 1 / 2 ^ 30) ∧
    calculateDtOnReset refEngine
      (State.mk (.fin 1000000) (.fin 0) (.fin (2 ^ 53)) upgrades) = .fin 1 ∧
    (handleReset refEngine true
      (State.mk (.fin 1000000) (.fin 0) (.fin (2 ^ 53)) upgrades)).1.dt = .fin (2 ^ 53) ∧
    (2 : ℚ) ^ 53 ≠ 2 ^ 53 + 1 := by
  refine ⟨by decide!, by decide!, by norm_num, by decide!, by decide!, by norm_num⟩

/-! ## Pricing on doubles -/

theorem round_onePointOneFive : round (23 / 20) = F64.fin onePointOneFive := by
  decide!

theorem onePointOneFive_pow_ge_one (n : ℕ) : (1 : ℚ) ≤ onePointOneFive ^ n :=
  one_le_pow₀ (by norm_num [onePointOneFive])

/-- What `Math.pow(1.15, n)` is on an accurate engine, `n = 0` included. -/
theorem pow_accurate {E : Engine} (hE : PowAccurate E) (n : ℕ) :
    (∃ p : ℚ, Math.pow E (round (23 / 20)) (.fin (n : ℚ)) = F64.fin p ∧
      |p - onePointOneFive ^ n| ≤ onePointOneFive ^ n / 2 ^ 50) ∨
    (Math.pow E (round (23 / 20)) (.fin (n : ℚ)) = F64.inf false ∧
      (2 : ℚ) ^ 1023 ≤ onePointOneFive ^ n) := by
  rw [round_onePointOneFive]
  rcases Nat.eq_zero_or_pos n with h0 | hpos
  · subst h0
    left
    refine ⟨1, by simp [Math.pow], by simp⟩
  · have hn0 : (n : ℚ) ≠ 0 := by exact_mod_cast (ne_of_gt hpos)
    have ha0 : onePointOneFive ≠ 0 := by norm_num [onePointOneFive]
    have han : ¬ onePointOneFive < 0 := by norm_num [onePointOneFive]
    have e : Math.pow E (.fin onePointOneFive) (.fin (n : ℚ)) = E.pow onePointOneFive n := by
      simp [Math.pow, hn0, ha0, han]
    rw [e]
    exact hE n hpos

/-- The rounded product `baseCost * p` for `baseCost ≥ 15` and `p` near `1.15 ^ n`. -/
theorem mul_round_bounds {b p A : ℚ} (hb : 15 ≤ b) (hA : 1 ≤ A)
    (hp : |p - A| ≤ A / 2 ^ 50) :
    0 ≤ b * p ∧ b * p * (1 - 1 / 2 ^ 53) ≤ roundMag (b * p) ∧
      roundMag (b * p) ≤ b * p * (1 + 1 / 2 ^ 53) ∧
      b * A * (1 - 1 / 2 ^ 50) ≤ b * p ∧ b * p ≤ b * A * (1 + 1 / 2 ^ 50) := by
  obtain ⟨hp1, hp2⟩ := abs_le.1 hp
  have hplo : A * (1 - 1 / 2 ^ 50) ≤ p := by linarith
  have hphi : p ≤ A * (1 + 1 / 2 ^ 50) := by linarith
  have hb0 : (0 : ℚ) ≤ b := by linarith
  have h1 : b * (A * (1 - 1 / 2 ^ 50)) ≤ b * p := mul_le_mul_of_nonneg_left hplo hb0
  have h2 : b * p ≤ b * (A * (1 + 1 / 2 ^ 50)) := mul_le_mul_of_nonneg_left hphi hb0
  have hbA : 15 ≤ b * A := by nlinarith
  have hbp : 1 ≤ b * p := by nlinarith
  have hnorm : (2 : ℚ) ^ (-1022 : ℤ) ≤ b * p := by
    have : (2 : ℚ) ^ (-1022 : ℤ) ≤ (2 : ℚ) ^ (0 : ℤ) := (zpow_two_le_iff _ _).2 (by norm_num)
    simp only [zpow_zero] at this
    linarith
  obtain ⟨e1, e2⟩ := abs_le.1 (roundMag_sub_le hnorm)
  refine ⟨by linarith, by linarith, by linarith, by linarith, by linarith⟩

/-- The cost as a function of the base cost and the count, on an accurate engine:
`+Infinity`, or the ceiling of the rounded product. -/
theorem cost_cases {E : Engine} (hE : PowAccurate E) {b : ℚ} (hb : 15 ≤ b) (n : ℕ) :
    (Math.ceil (F64.mul (.fin b) (Math.pow E (round (23 / 20)) (.fin (n : ℚ)))) = F64.inf false ∧
      (2 : ℚ) ^ 1024 ≤ b * onePointOneFive ^ n * (1 + 1 / 2 ^ 49)) ∨
    (∃ p : ℚ, |p - onePointOneFive ^ n| ≤ onePointOneFive ^ n / 2 ^ 50 ∧
      roundMag (b * p) < (2 : ℚ) ^ 1024 ∧
      Math.ceil (F64.mul (.fin b) (Math.pow E (round (23 / 20)) (.fin (n : ℚ))))
        = F64.fin ((⌈roundMag (b * p)⌉ : ℤ) : ℚ)) := by
  have hA := onePointOneFive_pow_ge_one n
  have hb0 : b ≠ 0 := by linarith
  have hbn : ¬ b < 0 := by linarith
  have hbA : 15 ≤ b * onePointOneFive ^ n := by nlinarith
  rcases pow_accurate hE n with ⟨p, hp, hacc⟩ | ⟨hinf, hbig⟩
  · obtain ⟨h0, hlo, hhi, hplo, hphi⟩ := mul_round_bounds hb hA hacc
    have e : F64.mul (.fin b) (.fin p) = round (b * p) := rfl
    rw [hp, e, round_of_nonneg h0, pow2_eq]
    have h1024 : (2 : ℚ) ^ (1024 : ℤ) = (2 : ℚ) ^ 1024 := by
      rw [show (1024 : ℤ) = ((1024 : ℕ) : ℤ) by norm_num, zpow_natCast]
    rw [h1024]
    by_cases hov : (2 : ℚ) ^ 1024 ≤ roundMag (b * p)
    · left
      rw [if_pos hov]
      refine ⟨rfl, ?_⟩
      have hbp : 0 ≤ b * p := h0
      have k1 : b * p * (1 + 1 / 2 ^ 53)
          ≤ b * onePointOneFive ^ n * (1 + 1 / 2 ^ 50) * (1 + 1 / 2 ^ 53) :=
        mul_le_mul_of_nonneg_right hphi (by norm_num)
      have k2 : b * onePointOneFive ^ n * (1 + 1 / 2 ^ 50) * (1 + 1 / 2 ^ 53)
          ≤ b * onePointOneFive ^ n * (1 + 1 / 2 ^ 49) := by
        have : (1 + 1 / 2 ^ 50 : ℚ) * (1 + 1 / 2 ^ 53) ≤ 1 + 1 / 2 ^ 49 := by norm_num
        calc b * onePointOneFive ^ n * (1 + 1 / 2 ^ 50) * (1 + 1 / 2 ^ 53)
            = b * onePointOneFive ^ n * ((1 + 1 / 2 ^ 50) * (1 + 1 / 2 ^ 53)) := by ring
          _ ≤ _ := mul_le_mul_of_nonneg_left this (by linarith)
      linarith
    · right
      rw [if_neg hov]
      exact ⟨p, hacc, not_le.1 hov, rfl⟩
  · left
    have e : F64.mul (.fin b) (.inf false) = F64.inf false := by
      simp [F64.mul, hb0, hbn]
    rw [hinf, e]
    refine ⟨rfl, ?_⟩
    have hpos : (0 : ℚ) ≤ onePointOneFive ^ n :=
      le_trans zero_le_one (onePointOneFive_pow_ge_one n)
    have h2 : (2 : ℚ) ^ 1024 = 2 * (2 : ℚ) ^ 1023 := by ring
    have h3 : 15 * (2 : ℚ) ^ 1023 ≤ b * onePointOneFive ^ n := by
      calc 15 * (2 : ℚ) ^ 1023 ≤ b * (2 : ℚ) ^ 1023 :=
            mul_le_mul_of_nonneg_right hb (by positivity)
        _ ≤ b * onePointOneFive ^ n := mul_le_mul_of_nonneg_left hbig (by linarith)
    have h4 : b * onePointOneFive ^ n ≤ b * onePointOneFive ^ n * (1 + 1 / 2 ^ 49) := by
      have : (0 : ℚ) ≤ b * onePointOneFive ^ n := by linarith
      nlinarith
    have h5 : (0 : ℚ) < (2 : ℚ) ^ 1023 := by positivity
    linarith

/-- One more owned: the cost does not fall, and it rises while it is finite. -/
theorem cost_step {E : Engine} (hE : PowAccurate E) {b : ℚ} (hb : 15 ≤ b) (n : ℕ) :
    ∃ c c2 : F64,
      c = Math.ceil (F64.mul (.fin b) (Math.pow E (round (23 / 20)) (.fin (n : ℚ)))) ∧
      c2 = Math.ceil (F64.mul (.fin b)
        (Math.pow E (round (23 / 20)) (.fin ((n + 1 : ℕ) : ℚ)))) ∧
      (c = F64.inf false ∨ ∃ z : ℤ, c = F64.fin (z : ℚ) ∧
        b * onePointOneFive ^ n * (1 - 1 / 2 ^ 49) ≤ (z : ℚ) ∧
        (z : ℚ) < b * onePointOneFive ^ n * (1 + 1 / 2 ^ 49) + 1) ∧
      F64.le c c2 = true ∧ (c2 ≠ F64.inf false → F64.lt c c2 = true) := by
  refine ⟨_, _, rfl, rfl, ?_, ?_⟩
  · rcases cost_cases hE hb n with ⟨h, -⟩ | ⟨p, hacc, -, h⟩
    · exact Or.inl h
    · right
      obtain ⟨h0, hlo, hhi, hplo, hphi⟩ :=
        mul_round_bounds hb (onePointOneFive_pow_ge_one n) hacc
      refine ⟨⌈roundMag (b * p)⌉, h, ?_, ?_⟩
      · have := Int.le_ceil (roundMag (b * p))
        have hbA : (0 : ℚ) ≤ b * onePointOneFive ^ n :=
          mul_nonneg (by linarith) (le_trans zero_le_one (onePointOneFive_pow_ge_one n))
        nlinarith
      · have := Int.ceil_lt_add_one (roundMag (b * p))
        have hbA : (0 : ℚ) ≤ b * onePointOneFive ^ n :=
          mul_nonneg (by linarith) (le_trans zero_le_one (onePointOneFive_pow_ge_one n))
        nlinarith
  · have hA := onePointOneFive_pow_ge_one n
    have hA2 := onePointOneFive_pow_ge_one (n + 1)
    have hsucc : b * onePointOneFive ^ (n + 1)
        = (5179139571476070 / 4503599627370496) * (b * onePointOneFive ^ n) := by
      rw [pow_succ]; unfold onePointOneFive; ring
    have ht : 15 ≤ b * onePointOneFive ^ n := by nlinarith
    rcases cost_cases hE hb (n + 1) with ⟨h2, -⟩ | ⟨p2, hacc2, hfin2, h2⟩
    · rw [h2]
      refine ⟨?_, fun hne => absurd rfl hne⟩
      rcases cost_cases hE hb n with ⟨h1, -⟩ | ⟨p1, -, -, h1⟩ <;> rw [h1] <;> rfl
    · obtain ⟨-, hlo2, -, hplo2, -⟩ := mul_round_bounds hb hA2 hacc2
      rw [hsucc] at hplo2
      rcases cost_cases hE hb n with ⟨h1, hbig⟩ | ⟨p1, hacc1, -, h1⟩
      · exfalso
        have h1024 : (0 : ℚ) < (2 : ℚ) ^ 1024 := by positivity
        nlinarith
      · obtain ⟨-, -, hhi1, -, hphi1⟩ := mul_round_bounds hb hA hacc1
        have hgap : roundMag (b * p1) + 1 ≤ roundMag (b * p2) := by nlinarith
        have hz : ⌈roundMag (b * p1)⌉ + 1 ≤ ⌈roundMag (b * p2)⌉ := by
          rw [← Int.ceil_add_one]; exact Int.ceil_mono hgap
        have hzq : ((⌈roundMag (b * p1)⌉ : ℤ) : ℚ) < ((⌈roundMag (b * p2)⌉ : ℤ) : ℚ) := by
          exact_mod_cast (by omega : ⌈roundMag (b * p1)⌉ < ⌈roundMag (b * p2)⌉)
        rw [h1, h2]
        refine ⟨?_, fun _ => ?_⟩
        · simp only [F64.le, decide_eq_true_eq]; exact le_of_lt hzq
        · simp only [F64.lt, decide_eq_true_eq]; exact hzq

/-- The reference engine's power is accurate in the sense of `PowAccurate`. -/
theorem refEngine_powAccurate : PowAccurate refEngine := by
  intro n hn
  have hq : (1 : ℚ) ≤ onePointOneFive ^ n := onePointOneFive_pow_ge_one n
  have hq0 : (0 : ℚ) ≤ onePointOneFive ^ n := by linarith
  have e : refEngine.pow onePointOneFive n = round (onePointOneFive ^ n) := by
    simp [refEngine]
  rw [e, round_of_nonneg hq0, pow2_eq]
  by_cases hov : (2 : ℚ) ^ (1024 : ℤ) ≤ roundMag (onePointOneFive ^ n)
  · right
    rw [if_pos hov]
    refine ⟨rfl, ?_⟩
    obtain ⟨s1, s2⟩ := ilog2_spec _ (by linarith : (0 : ℚ) < onePointOneFive ^ n)
    have hlog : 0 ≤ ilog2 (onePointOneFive ^ n) := by
      have h1 : (2 : ℚ) ^ (0 : ℤ) ≤ onePointOneFive ^ n := by simpa using hq
      have : (0 : ℤ) < ilog2 (onePointOneFive ^ n) + 1 :=
        (zpow_two_lt_iff _ _).1 (lt_of_le_of_lt h1 s2)
      omega
    have hle := roundMag_le hq0
    rw [max_eq_left (by omega)] at hle
    have h2 : (1024 : ℤ) ≤ ilog2 (onePointOneFive ^ n) + 1 :=
      (zpow_two_le_iff _ _).1 (le_trans hov hle)
    have h3 : (2 : ℚ) ^ (1023 : ℤ) ≤ (2 : ℚ) ^ ilog2 (onePointOneFive ^ n) :=
      (zpow_two_le_iff _ _).2 (by omega)
    have h4 : (2 : ℚ) ^ (1023 : ℤ) = (2 : ℚ) ^ 1023 := by
      rw [show (1023 : ℤ) = ((1023 : ℕ) : ℤ) by norm_num, zpow_natCast]
    rw [← h4]
    exact le_trans h3 s1
  · left
    rw [if_neg hov]
    refine ⟨_, rfl, ?_⟩
    have hnorm : (2 : ℚ) ^ (-1022 : ℤ) ≤ onePointOneFive ^ n := by
      have : (2 : ℚ) ^ (-1022 : ℤ) ≤ (2 : ℚ) ^ (0 : ℤ) := (zpow_two_le_iff _ _).2 (by norm_num)
      simp only [zpow_zero] at this
      linarith
    have h53 := roundMag_sub_le hnorm
    have : onePointOneFive ^ n / 2 ^ 53 ≤ onePointOneFive ^ n / 2 ^ 50 :=
      div_le_div_of_nonneg_left hq0 (by norm_num) (by norm_num)
    linarith

/-- C5 (amended): for a catalog upgrade with owned count `n`, on every engine with
an accurate `Math.pow`, `calculateCost` returns
`Math.ceil(baseCost * Math.pow(1.15, n))` computed on doubles: `+Infinity` or an
integer within `2 ^ (-49)` relative (and the rounding up) of
`baseCost * a ^ n`, where `a` is the Number of the literal `1.15`; the cost at
count `n + 1` is never below the cost at count `n`, and it is strictly above it
unless it is `+Infinity`. -/
theorem calculateCost_ceil_strictMono (E : Engine) (hE : PowAccurate E)
    (u : Upgrade) (hu : u ∈ upgrades) (n : ℕ) :
    ∃ (b : ℚ) (c c2 : F64), u.baseCost = F64.fin b ∧ 15 ≤ b ∧
      calculateCost E (some { u with count := F64.fin (n : ℚ) }) = .ok c ∧
      calculateCost E (some { u with count := F64.fin ((n + 1 : ℕ) : ℚ) }) = .ok c2 ∧
      c = Math.ceil (F64.mul u.baseCost (Math.pow E (round (23 / 20)) (.fin (n : ℚ)))) ∧
      (c = F64.inf false ∨ ∃ z : ℤ, c = F64.fin (z : ℚ) ∧
        b * onePointOneFive ^ n * (1 - 1 / 2 ^ 49) ≤ (z : ℚ) ∧
        (z : ℚ) < b * onePointOneFive ^ n * (1 + 1 / 2 ^ 49) + 1) ∧
      F64.le c c2 = true ∧ (c2 ≠ F64.inf false → F64.lt c c2 = true) := by
  have key : ∀ b : ℚ, 15 ≤ b → u.baseCost = F64.fin b →
      ∃ (b : ℚ) (c c2 : F64), u.baseCost = F64.fin b ∧ 15 ≤ b ∧
      calculateCost E (some { u with count := F64.fin (n : ℚ) }) = .ok c ∧
      calculateCost E (some { u with count := F64.fin ((n + 1 : ℕ) : ℚ) }) = .ok c2 ∧
      c = Math.ceil (F64.mul u.baseCost (Math.pow E (round (23 / 20)) (.fin (n : ℚ)))) ∧
      (c = F64.inf false ∨ ∃ z : ℤ, c = F64.fin (z : ℚ) ∧
        b * onePointOneFive ^ n * (1 - 1 / 2 ^ 49) ≤ (z : ℚ) ∧
        (z : ℚ) < b * onePointOneFive ^ n * (1 + 1 / 2 ^ 49) + 1) ∧
      F64.le c c2 = true ∧ (c2 ≠ F64.inf false → F64.lt c c2 = true) := by
    intro b hb hub
    obtain ⟨c, c2, hc, hc2, hz, hle, hlt⟩ := cost_step hE hb n
    refine ⟨b, c, c2, hub, hb, ?_, ?_, ?_, hz, hle, hlt⟩
    · simp only [calculateCost, hub, hc]
    · simp only [calculateCost, hub, hc2]
    · rw [hub, hc]
  simp only [upgrades, List.mem_cons, List.mem_singleton, List.not_mem_nil, or_false] at hu
  rcases hu with rfl | rfl | rfl | rfl | rfl | rfl
  · exact key 15 (by norm_num) rfl
  · exact key 100 (by norm_num) rfl
  · exact key 500 (by norm_num) rfl
  · exact key 3000 (by norm_num) rfl
  · exact key 10000 (by norm_num) rfl
  · exact key 100000 (by norm_num) rfl

/-- Papyrus with three owned on the reference engine: the cost is `761`, and the
next one is larger. -/
theorem calculateCost_ceil_strictMono_witness :
    PowAccurate refEngine ∧
    (Upgrade.mk "papyrus" "Papyrus" (.fin 500) (.fin 20) (.fin 0)) ∈ upgrades ∧
    ∃ c2 : F64,
      calculateCost refEngine (some (Upgrade.mk "papyrus" "Papyrus" (.fin 500) (.fin 20) (.fin 3)))
        = .ok (.fin 761) ∧
      calculateCost refEngine (some (Upgrade.mk "papyrus" "Papyrus" (.fin 500) (.fin 20) (.fin 4)))
        = .ok c2 ∧
      F64.lt (.fin 761) c2 = true := by
  obtain ⟨b, c, c2, -, -, h1, h2, hc, -, -, hlt⟩ :=
    calculateCost_ceil_strictMono refEngine refEngine_powAccurate
      (Upgrade.mk "papyrus" "Papyrus" (.fin 500) (.fin 20) (.fin 0)) (by decide!) 3
  have e1 : c = .fin 761 := by rw [hc]; decide!
  have e2 : c2 = .fin 875 := by
    have h : calculateCost refEngine
        (some (Upgrade.mk "papyrus" "Papyrus" (.fin 500) (.fin 20) (.fin 4)))
        = .ok (.fin 875) := by
      simp only [calculateCost]; congr 1; decide!
    have h2b : calculateCost refEngine
        (some (Upgrade.mk "papyrus" "Papyrus" (.fin 500) (.fin 20) (.fin 4))) = .ok c2 := by
      simpa using h2
    rw [h] at h2b
    cases h2b; rfl
  subst e1
  refine ⟨refEngine_powAccurate, by decide!, c2, ?_, ?_, hlt (by rw [e2]; decide!)⟩
  · simpa using h1
  · simpa using h2

/-- C5 (counterexample): on the reference engine Alphys at count 117 costs
`126370970671`, which is below `10000 * 1.15 ^ 117` (the exact ceiling is
`126370970672`); and Flowey costs `+Infinity` at count 5060 and at count 5061, so
the cost does not rise there. -/
theorem calculateCost_ceil_strictMono_counterexample :
    calculateCost refEngine
        (some (Upgrade.mk "alphys" "Alphys" (.fin 10000) (.fin 450) (.fin 117)))
      = .ok (.fin 126370970671) ∧
    (126370970671 : ℚ) < 10000 * (23 / 20) ^ 117 ∧
    ⌈(10000 : ℚ) * (23 / 20) ^ 117⌉ = 126370970672 ∧
    calculateCost refEngine (some (Upgrade.mk "flowey" "Flowey" (.fin 15) (.fin 1) (.fin 5060)))
      = .ok (.inf false) ∧
    calculateCost refEngine (some (Upgrade.mk "flowey" "Flowey" (.fin 15) (.fin 1) (.fin 5061)))
      = .ok (.inf false) ∧
    F64.lt (.inf false) (.inf false) = false := by
  refine ⟨?_, by norm_num, ?_, ?_, ?_, rfl⟩
  · simp only [calculateCost]; congr 1; decide!
  · rw [Int.ceil_eq_iff]; norm_num
  · simp only [calculateCost]; congr 1; decide!
  · simp only [calculateCost]; congr 1; decide!

end IEEE

end UnderClicker
